import Mathlib

/-!
Epoll echo server (`test_epoll_tcp_server/server.c`).

A shallow embedding of the event loop body of `run_server` and of the
functions it calls.  Program state is passed explicitly; the answers of the
operating system (what `read`, `write`, `accept`, `fcntl`, `epoll_ctl`
return) are inputs.  Every library call the program makes is appended to a
trace, newest call first, so that statements about what was read, written,
registered or closed can be made about the trace.

`server.h` is not part of the sources: `MAX_CLIENT_CNT` and `BUFFER_LEN`
are parameters (`N` and `B` below) and `client_t` has the six fields the
code uses.
-/

namespace EpollServer

/-- One `char`.  Bytes are only copied, never computed with. -/
abbrev Byte := Nat

/-! ## Constants of the system headers (Linux) -/

abbrev EPOLLIN : Nat := 1
abbrev EPOLLOUT : Nat := 4
abbrev EPOLL_CTL_ADD : Nat := 1
abbrev EPOLL_CTL_DEL : Nat := 2
abbrev EPOLL_CTL_MOD : Nat := 3
abbrev EAGAIN : Int := 11
abbrev EINTR : Int := 4

/-! ## Data model -/

/-- The connection record.  A buffer is the memory starting at the array:
offset `i` is `buf[i]`; the array itself occupies the offsets below
`BUFFER_LEN`, larger offsets are memory past its end. -/
structure client_t where
  fd : Int
  events : Nat
  rbuf : Nat → Byte
  rlen : Nat
  wbuf : Nat → Byte
  wlen : Nat

/-- A library call made by the program, with what it returned. -/
inductive Call where
  /-- The call `accept(listen_fd, ..)` and its return value. -/
  | accept (listen_fd : Int) (ret : Int)
  /-- The call `fcntl(fd, F_SETFL, ..)` of `set_nonblocking`. -/
  | fcntl (fd : Int)
  /-- The call `epoll_ctl(g_epfd, op, fd, &ee)` with `ee.events`. -/
  | epoll_ctl (op : Nat) (fd : Int) (events : Nat)
  /-- The call `close(fd)`. -/
  | close (fd : Int)
  /-- The call `read(fd, ..)`; `got` are the bytes delivered (none at end of
  stream or on failure). -/
  | read (fd : Int) (got : List Byte)
  /-- The call `write(fd, buf, len)`; `took` are the bytes the transport
  accepted (none on failure). -/
  | write (fd : Int) (len : Nat) (took : List Byte)
  /-- A `memcpy` of `n` bytes to offset `off` of a connection buffer. -/
  | memcpy (off : Nat) (n : Nat)
  deriving DecidableEq

/-- What the transport answers to one `write(fd, buf, len)`: it is prepared
to take `n` bytes (the call then returns `min n len`, never more than was
offered), or the call fails with `errno = e`. -/
inductive WriteRes where
  | took (n : Nat)
  | fail (e : Int)
  deriving DecidableEq

/-- Global state of the process together with the kernel's queue of
connections waiting to be accepted (`backlog`, each given by the descriptor
`accept` will return for it) and the trace of calls, newest first. -/
structure State where
  g_listen_fd : Int
  g_clients : Int → Option client_t
  errno : Int
  backlog : List Int
  trace : List Call

/-- One entry `ees[i]` of `epoll_wait`, with the answers the operating
system gives during its dispatch: the chunks successive `read` calls
deliver (an empty chunk is a `read` returning 0) and the `errno` of the
failing `read` once they are used up; the answers to the `write` inside
`handle_data` (`w1`) and to the one under `EPOLLOUT` (`w2`); the failure,
if any, of `fcntl(F_SETFL)` and of `epoll_ctl`. -/
structure Event where
  fd : Int
  events : Nat
  reads : List (List Byte)
  rerr : Int
  w1 : WriteRes
  w2 : WriteRes
  fcntl_err : Option Int
  ctl_err : Option Int

/-! ## Memory helpers -/

/-- The first `n` bytes of a buffer. -/
def bytes (buf : Nat → Byte) (n : Nat) : List Byte := (List.range n).map buf

/-- Store one byte. -/
def store (buf : Nat → Byte) (i : Nat) (v : Byte) : Nat → Byte :=
  fun j => if j = i then v else buf j

/-- The call `memcpy(dst + d, src + s, n)` between two different objects,
byte by byte in ascending order. -/
def memcpy (dst : Nat → Byte) (d : Nat) (src : Nat → Byte) (s : Nat) :
    Nat → Nat → Byte
  | 0 => dst
  | n + 1 => memcpy (store dst d (src s)) (d + 1) src (s + 1) n

/-- The call `memcpy(buf + d, buf + s, n)` inside one object, byte by byte in
ascending order, each byte read when it is copied.  (ISO C leaves `memcpy`
on overlapping ranges undefined; the ascending copy is the behaviour
modelled.) -/
def memcpy_overlap (buf : Nat → Byte) (d : Nat) (s : Nat) : Nat → Nat → Byte
  | 0 => buf
  | n + 1 => memcpy_overlap (store buf d (buf s)) (d + 1) (s + 1) n

/-- The call `memset(buf, 0, n)`. -/
def memset0 (buf : Nat → Byte) (n : Nat) : Nat → Byte :=
  fun j => if j < n then 0 else buf j

/-- The local array `rbuf[1024]` of `read_data` holding a chunk. -/
def chunk_buf (l : List Byte) : Nat → Byte := fun i => l.getD i 0

/-! ## State helpers -/

/-- Append a call to the trace. -/
def log (s : State) (x : Call) : State := { s with trace := x :: s.trace }

/-- The assignment `g_clients[fd] = p`; a record reached through the pointer
in slot `fd` is updated by storing the new record in the slot. -/
def set_client (s : State) (fd : Int) (p : Option client_t) : State :=
  { s with g_clients := fun k => if k = fd then p else s.g_clients k }

/-- Set `errno`. -/
def set_errno (s : State) (e : Int) : State := { s with errno := e }

/-! ## The functions of `server.c` -/

/-- Function `get_client` (lines 189-194). -/
def get_client (N : Nat) (s : State) (fd : Int) : Option client_t :=
  if fd ≤ 0 ∨ fd ≥ (N : Int) then none else s.g_clients fd

/-- The zeroed record `calloc(1, sizeof(client_t))` returns. -/
def calloc_client : client_t :=
  { fd := 0, events := 0, rbuf := fun _ => 0, rlen := 0, wbuf := fun _ => 0, wlen := 0 }

/-- Function `add_client` (lines 173-187): the record returned (`none` for `NULL`)
and the new state.  `calloc` gives a zeroed record. -/
def add_client (N : Nat) (s : State) (fd : Int) (events : Nat) :
    Option client_t × State :=
  match get_client N s fd with
  | some _ => (none, s)
  | none =>
    let c : client_t := { calloc_client with fd := fd, events := events }
    (some c, set_client s fd (some c))

/-- Function `del_client` (lines 196-215).  A failure of `epoll_ctl` or `close` is
only logged by the code. -/
def del_client (N : Nat) (s : State) (fd : Int) : Int × State :=
  match get_client N s fd with
  | none => (-1, s)
  | some c =>
    let s1 :=
      if c.events &&& (EPOLLIN ||| EPOLLOUT) ≠ 0 then
        log s (Call.epoll_ctl EPOLL_CTL_DEL fd 0)
      else s
    (0, set_client (log s1 (Call.close fd)) fd none)

/-- Function `set_nonblocking` (lines 163-171); `r` is the failure of
`fcntl(fd, F_SETFL, val)`, if any. -/
def set_nonblocking (s : State) (fd : Int) (r : Option Int) : Int × State :=
  match r with
  | some e => (-1, set_errno (log s (Call.fcntl fd)) e)
  | none => (0, log s (Call.fcntl fd))

/-- Function `accept_data` (lines 217-260).  `accept` takes the head of the backlog
and fails with `EAGAIN` when the backlog is empty. -/
def accept_data (s : State) (listen_fd : Int) (fcntl_err ctl_err : Option Int) :
    Int × State :=
  match s.backlog with
  | [] => (-1, set_errno (log s (Call.accept listen_fd (-1))) EAGAIN)
  | fd :: rest =>
    let s1 := log { s with backlog := rest } (Call.accept listen_fd fd)
    if fd < 0 then (-1, s1)
    else
      let r := set_nonblocking s1 fd fcntl_err
      if r.1 < 0 then (-1, log r.2 (Call.close fd))
      else
        let s2 := log r.2 (Call.epoll_ctl EPOLL_CTL_ADD fd EPOLLIN)
        match ctl_err with
        | some e => (-1, log (set_errno s2 e) (Call.close fd))
        | none => (fd, s2)

/-- The `while (1)` loop of `read_data` (lines 274-291) on the record `c`
in slot `fd`. -/
def read_loop (s : State) (fd : Int) (c : client_t) :
    List (List Byte) → Int → Int × State
  | [], rerr => (-1, set_errno (log s (Call.read c.fd [])) rerr)
  | l :: rest, rerr =>
    if l.length = 0 then (0, log s (Call.read c.fd []))
    else
      let c1 : client_t :=
        { c with rbuf := memcpy c.rbuf c.rlen (chunk_buf l) 0 l.length,
                 rlen := c.rlen + l.length }
      let s1 := log (log s (Call.read c.fd l)) (Call.memcpy c.rlen l.length)
      read_loop (set_client s1 fd (some c1)) fd c1 rest rerr

/-- Function `read_data` (lines 263-294). -/
def read_data (N : Nat) (s : State) (fd : Int) (reads : List (List Byte))
    (rerr : Int) : Int × State :=
  match get_client N s fd with
  | none => (-1, s)
  | some c => read_loop s fd c reads rerr

/-- Function `write_data` (lines 296-330). -/
def write_data (N : Nat) (s : State) (fd : Int) (r : WriteRes) : Int × State :=
  match get_client N s fd with
  | none => (-1, s)
  | some c =>
    if c.wlen = 0 then (0, s)
    else
      let len := if c.wlen < 8 then c.wlen else 8
      match r with
      | WriteRes.took k =>
        let wlen := min k len
        let c1 : client_t :=
          { c with wbuf := memcpy_overlap c.wbuf 0 wlen (c.wlen - wlen),
                   wlen := c.wlen - wlen }
        let s1 := log (log s (Call.write c.fd len (bytes c.wbuf wlen)))
                    (Call.memcpy 0 (c.wlen - wlen))
        ((wlen : Int), set_client s1 fd (some c1))
      | WriteRes.fail e => (-1, set_errno (log s (Call.write c.fd len [])) e)

/-- Function `handle_data` (lines 141-161).  The record is used without a `NULL`
test: `none` is the crash when `get_client` gives `NULL`. -/
def handle_data (N B : Nat) (s : State) (fd : Int) (r : WriteRes) :
    Option (Int × State) :=
  match get_client N s fd with
  | none => none
  | some c =>
    let s1 :=
      if c.rlen > 0 then
        let c1 : client_t :=
          { c with wbuf := memcpy c.wbuf c.wlen c.rbuf 0 c.rlen,
                   wlen := c.wlen + c.rlen,
                   rbuf := memset0 c.rbuf B,
                   rlen := 0 }
        set_client (log s (Call.memcpy c.wlen c.rlen)) fd (some c1)
      else s
    let w := write_data N s1 fd r
    if w.1 < 0 ∧ w.2.errno ≠ EAGAIN ∧ w.2.errno ≠ EINTR then
      some (-1, (del_client N w.2 fd).2)
    else some (1, w.2)

/-- Function `handle_write_events` (lines 332-380); `ctl` is the failure of
`epoll_ctl`, if any.  `~EPOLLOUT` is taken in the 32 bits of `ee.events`. -/
def handle_write_events (s : State) (fd : Int) (ctl : Option Int) : Int × State :=
  match s.g_clients fd with
  | none => (-1, s)
  | some c =>
    if c.wlen > 0 then
      if c.events &&& EPOLLOUT = 0 then
        let ee_events := c.events ||| EPOLLOUT
        let op := if c.events = 0 then EPOLL_CTL_ADD else EPOLL_CTL_MOD
        let s1 := log s (Call.epoll_ctl op c.fd ee_events)
        match ctl with
        | some e => (-1, set_errno s1 e)
        | none => (1, set_client s1 fd (some { c with events := ee_events }))
      else (1, s)
    else
      if c.events &&& EPOLLOUT ≠ 0 then
        let ee_events := c.events &&& 4294967291
        let op := if c.events = 0 then EPOLL_CTL_DEL else EPOLL_CTL_MOD
        let s1 := log s (Call.epoll_ctl op c.fd ee_events)
        match ctl with
        | some e => (-1, set_errno s1 e)
        | none => (1, set_client s1 fd (some { c with events := ee_events }))
      else (1, s)

/-- Lines 121-135 of `run_server`: the echo step, the write under
`EPOLLOUT`, the interest update. -/
def dispatch_echo (N B : Nat) (s : State) (e : Event) : Option State :=
  match handle_data N B s e.fd e.w1 with
  | none => none
  | some h =>
    if e.events &&& EPOLLOUT ≠ 0 then
      let w := write_data N h.2 e.fd e.w2
      if w.1 < 0 ∧ w.2.errno ≠ EAGAIN ∧ w.2.errno ≠ EINTR then
        some (del_client N w.2 e.fd).2
      else some (handle_write_events w.2 e.fd e.ctl_err).2
    else some (handle_write_events h.2 e.fd e.ctl_err).2

/-- The body of the `for` loop of `run_server` (lines 83-136) for one entry
of `epoll_wait`; `none` is a crash. -/
def dispatch (N B : Nat) (s : State) (e : Event) : Option State :=
  if e.fd = s.g_listen_fd then
    let a := accept_data s s.g_listen_fd e.fcntl_err e.ctl_err
    if a.1 < 0 then some a.2
    else some (add_client N a.2 a.1 EPOLLIN).2
  else if e.events &&& (EPOLLIN ||| EPOLLOUT) = 0 then
    some (del_client N s e.fd).2
  else
    match get_client N s e.fd with
    | none => some s
    | some _ =>
      if e.events &&& EPOLLIN ≠ 0 then
        let r := read_data N s e.fd e.reads e.rerr
        if r.1 = 0 then some (del_client N r.2 e.fd).2
        else if r.1 < 0 ∧ r.2.errno ≠ EAGAIN ∧ r.2.errno ≠ EINTR then
          some (del_client N r.2 e.fd).2
        else dispatch_echo N B r.2 e
      else dispatch_echo N B s e

/-- The entries of `epoll_wait` dispatched one after the other. -/
def run (N B : Nat) : State → List Event → Option State
  | s, [] => some s
  | s, e :: es =>
    match dispatch N B s e with
    | none => none
    | some s1 => run N B s1 es

/-! ## Observations on the trace -/

/-- Bytes accepted by `write` on `fd`, oldest first. -/
def sent : List Call → Int → List Byte
  | [], _ => []
  | Call.write g _ took :: t, fd => if g = fd then sent t fd ++ took else sent t fd
  | _ :: t, fd => sent t fd

/-- Bytes delivered by `read` on `fd`, oldest first. -/
def recv : List Call → Int → List Byte
  | [], _ => []
  | Call.read g got :: t, fd => if g = fd then recv t fd ++ got else recv t fd
  | _ :: t, fd => recv t fd

/-- Number of `write` calls on `fd`. -/
def writes : List Call → Int → Nat
  | [], _ => 0
  | Call.write g _ _ :: t, fd => if g = fd then writes t fd + 1 else writes t fd
  | _ :: t, fd => writes t fd

/-- Number of `accept` calls. -/
def accepts : List Call → Nat
  | [] => 0
  | Call.accept _ _ :: t => accepts t + 1
  | _ :: t => accepts t

/-- Every `memcpy` into a connection buffer stays below the capacity `B`. -/
def in_capacity (B : Nat) (t : List Call) : Bool :=
  t.all fun x =>
    match x with
    | Call.memcpy off n => decide (off + n ≤ B)
    | _ => true

/-- The state `run_server` starts from: no client, empty trace. -/
def init_state (listen_fd : Int) (backlog : List Int) : State :=
  { g_listen_fd := listen_fd, g_clients := fun _ => none, errno := 0,
    backlog := backlog, trace := [] }

/-- Successive calls of `write_data` on `fd` with no input in between, one
per answer of the transport. -/
def write_run (N : Nat) (s : State) (fd : Int) : List WriteRes → State
  | [] => s
  | r :: rs => write_run N (write_data N s fd r).2 fd rs

/-- A connection on descriptor 5, interested in reading and writing, with
twenty bytes waiting in its write buffer. -/
def sample_client : client_t :=
  { fd := 5, events := 5, rbuf := fun _ => 0, rlen := 0,
    wbuf := chunk_buf [10, 11, 12, 13, 14, 15, 16, 17, 18, 19,
      20, 21, 22, 23, 24, 25, 26, 27, 28, 29],
    wlen := 20 }

/-- The server listening on descriptor 3 with `sample_client` as its only
connection. -/
def sample_state : State :=
  set_client (init_state 3 []) 5 (some sample_client)

/-- A readiness entry for `fd` with the given flags, chunks and answers to
the two writes; a `read` with nothing left fails with `EAGAIN`, and
`fcntl` and `epoll_ctl` succeed. -/
def sample_event (fd : Int) (events : Nat) (reads : List (List Byte))
    (w1 w2 : WriteRes) : Event :=
  { fd := fd, events := events, reads := reads, rerr := EAGAIN, w1 := w1, w2 := w2,
    fcntl_err := none, ctl_err := none }

/-- The calls made since the descriptor `fd` was last closed (all calls when
it never was): the calls of the lifetime of the connection that is on `fd`
now.  The trace is newest first, so these are its entries before the first
`close(fd)`. -/
def life : List Call → Int → List Call
  | [], _ => []
  | x :: t, fd => if x = Call.close fd then [] else x :: life t fd

/-- Whether the descriptor `fd` is open as far as the trace tells: it was
returned by `accept` and not closed since. -/
def is_open : List Call → Int → Bool
  | [], _ => false
  | Call.close g :: t, fd => if g = fd then false else is_open t fd
  | Call.accept _ r :: t, fd => if r = fd then true else is_open t fd
  | _ :: t, fd => is_open t fd

/-- The kernel hands out descriptor numbers that are not in use: every
successful `accept` of the trace returned a descriptor that was not open at
the time. -/
def fresh_accepts : List Call → Bool
  | [] => true
  | Call.accept _ r :: t => (decide (r < 0) || !is_open t r) && fresh_accepts t
  | _ :: t => fresh_accepts t

/-- Every record sits in the slot of its own descriptor (`add_client` stores
the record with `c->fd = fd` at `g_clients[fd]`). -/
def well_formed (s : State) : Prop :=
  ∀ k c, s.g_clients k = some c → c.fd = k

/-- The descriptor of every record in the table is open. -/
def tracked_open (s : State) : Prop :=
  ∀ k c, s.g_clients k = some c → is_open s.trace k = true

/-- The echo law for the handle `fd`, over the lifetime of the connection
that is on `fd` now: what was written, then the pending write buffer, then
the pending read buffer, is what was read.  On a handle without a
connection nothing was read or written since it was closed. -/
def echo_law (N : Nat) (s : State) (fd : Int) : Prop :=
  match get_client N s fd with
  | some c =>
    sent (life s.trace fd) fd ++ bytes c.wbuf c.wlen ++ bytes c.rbuf c.rlen =
      recv (life s.trace fd) fd
  | none => sent (life s.trace fd) fd = recv (life s.trace fd) fd

/-- The invariant behind the echo law. -/
def conn_inv (N : Nat) (s : State) : Prop :=
  well_formed s ∧ tracked_open s ∧ ∀ g, echo_law N s g

/-- The interest of every record in the table is Read, or Read and Write. -/
def events_ok (s : State) : Prop :=
  ∀ k c, s.g_clients k = some c →
    c.events = EPOLLIN ∨ c.events = EPOLLIN ||| EPOLLOUT

/-- The states the process can be in at any point of `run_server`: the
start state, and whatever a call of one of the functions of `server.c`
makes of such a state, for any arguments and any answers of the operating
system.  The only call of `add_client` in the program passes `EPOLLIN`
(line 90). -/
inductive Reachable (N B : Nat) : State → Prop where
  | start (listen_fd : Int) (backlog : List Int) :
      Reachable N B (init_state listen_fd backlog)
  | accept (s : State) (listen_fd : Int) (r1 r2 : Option Int) :
      Reachable N B s → Reachable N B (accept_data s listen_fd r1 r2).2
  | add (s : State) (fd : Int) :
      Reachable N B s → Reachable N B (add_client N s fd EPOLLIN).2
  | del (s : State) (fd : Int) :
      Reachable N B s → Reachable N B (del_client N s fd).2
  | read (s : State) (fd : Int) (reads : List (List Byte)) (rerr : Int) :
      Reachable N B s → Reachable N B (read_data N s fd reads rerr).2
  | write (s : State) (fd : Int) (r : WriteRes) :
      Reachable N B s → Reachable N B (write_data N s fd r).2
  | handle (s : State) (fd : Int) (r : WriteRes) (h : Int × State) :
      Reachable N B s → handle_data N B s fd r = some h → Reachable N B h.2
  | interest (s : State) (fd : Int) (ctl : Option Int) :
      Reachable N B s → Reachable N B (handle_write_events s fd ctl).2

/-- The bytes the successive `read` calls of one `read_data` hand over:
the chunks up to the first empty one (end of stream) or up to the failing
`read`. -/
def delivered : List (List Byte) → List Byte
  | [] => []
  | l :: rest => if l.length = 0 then [] else l ++ delivered rest

/-- Five chunks of 1024 bytes each, as five `read` calls fill the local
array of `read_data`. -/
def five_chunks : List (List Byte) := List.replicate 5 (List.replicate 1024 65)

/-- Four chunks of 1024 bytes each: they fill a buffer of 4096 bytes
exactly. -/
def four_chunks : List (List Byte) := List.replicate 4 (List.replicate 1024 65)

/-- Whether one of the `read` calls of a `read_data` returns 0 (an empty
chunk): the peer has closed. -/
def peer_closed : List (List Byte) → Bool
  | [] => false
  | l :: rest => if l.length = 0 then true else peer_closed rest

/-- A state in the middle of a dispatch, just before `handle_write_events`
is called: a connection was accepted on descriptor 5, three bytes arrived,
the first `write` failed with `EAGAIN` so `EPOLLOUT` was registered, and
now a `write` has taken all three bytes. -/
def drained_state : State :=
  (write_data 1024
    (handle_write_events
      ((handle_data 1024 4096
          (read_data 1024
            (add_client 1024 (accept_data (init_state 3 [5]) 3 none none).2 5 EPOLLIN).2
            5 [[1, 2, 3]] EAGAIN).2
          5 (WriteRes.fail EAGAIN)).getD (0, init_state 3 [])).2
      5 none).2
    5 (WriteRes.took 8)).2

/-- The record on descriptor 5 in `drained_state`. -/
def drained_client : client_t :=
  (get_client 1024 drained_state 5).getD calloc_client



/-! ## Memory lemmas -/

theorem memcpy_apply (dst : Nat → Byte) (d : Nat) (src : Nat → Byte) (s n j : Nat) :
    memcpy dst d src s n j = if d ≤ j ∧ j < d + n then src (s + (j - d)) else dst j := by
  induction n generalizing dst d s with
  | zero =>
    have h0 : ¬ (d ≤ j ∧ j < d + 0) := by omega
    rw [if_neg h0]
    rfl
  | succ n ih =>
    rw [memcpy, ih]
    by_cases h1 : d + 1 ≤ j ∧ j < d + 1 + n
    · have h2 : d ≤ j ∧ j < d + (n + 1) := by omega
      have h3 : s + 1 + (j - (d + 1)) = s + (j - d) := by omega
      rw [if_pos h1, if_pos h2, h3]
    · rw [if_neg h1]
      by_cases h4 : j = d
      · subst h4
        have h2 : j ≤ j ∧ j < j + (n + 1) := by omega
        simp [store, h2]
      · have h2 : ¬ (d ≤ j ∧ j < d + (n + 1)) := by omega
        simp [store, h2, h4]

theorem memcpy_overlap_apply (buf : Nat → Byte) (d s n j : Nat) (hds : d ≤ s) :
    memcpy_overlap buf d s n j = if d ≤ j ∧ j < d + n then buf (s + (j - d)) else buf j := by
  induction n generalizing buf d s with
  | zero =>
    have h0 : ¬ (d ≤ j ∧ j < d + 0) := by omega
    rw [if_neg h0]
    rfl
  | succ n ih =>
    rw [memcpy_overlap, ih _ _ _ (by omega)]
    by_cases h1 : d + 1 ≤ j ∧ j < d + 1 + n
    · have h2 : d ≤ j ∧ j < d + (n + 1) := by omega
      have h3 : s + 1 + (j - (d + 1)) = s + (j - d) := by omega
      have h5 : s + (j - d) ≠ d := by omega
      rw [if_pos h1, if_pos h2, h3]
      simp [store, h5]
    · rw [if_neg h1]
      by_cases h4 : j = d
      · subst h4
        have h2 : j ≤ j ∧ j < j + (n + 1) := by omega
        simp [store, h2]
      · have h2 : ¬ (d ≤ j ∧ j < d + (n + 1)) := by omega
        simp [store, h2, h4]

theorem bytes_length (f : Nat → Byte) (n : Nat) : (bytes f n).length = n := by
  simp [bytes]

theorem bytes_zero (f : Nat → Byte) : bytes f 0 = [] := by
  simp [bytes]

theorem bytes_congr (f g : Nat → Byte) (n : Nat) (h : ∀ i, i < n → f i = g i) :
    bytes f n = bytes g n := by
  unfold bytes
  apply List.map_congr_left
  intro i hi
  exact h i (List.mem_range.mp hi)

theorem bytes_add (f : Nat → Byte) (a b : Nat) :
    bytes f (a + b) = bytes f a ++ bytes (fun i => f (a + i)) b := by
  unfold bytes
  rw [List.range_add, List.map_append, List.map_map]
  rfl

theorem bytes_chunk_buf (l : List Byte) : bytes (chunk_buf l) l.length = l := by
  apply List.ext_getElem
  · simp [bytes]
  · intro i h1 h2
    simp [bytes, chunk_buf, List.getD_eq_getElem?_getD, List.getElem?_eq_getElem h2]

theorem bytes_memcpy (dst : Nat → Byte) (d : Nat) (src : Nat → Byte) (n : Nat) :
    bytes (memcpy dst d src 0 n) (d + n) = bytes dst d ++ bytes src n := by
  rw [bytes_add]
  congr 1
  · apply bytes_congr
    intro i hi
    rw [memcpy_apply, if_neg (by omega)]
  · apply bytes_congr
    intro i hi
    rw [memcpy_apply, if_pos (by omega)]
    congr 1
    omega

theorem bytes_memcpy_overlap (buf : Nat → Byte) (w n : Nat) (h : w ≤ n) :
    bytes buf w ++ bytes (memcpy_overlap buf 0 w (n - w)) (n - w) = bytes buf n := by
  have hn : n = w + (n - w) := by omega
  conv_rhs => rw [hn, bytes_add]
  congr 1
  apply bytes_congr
  intro i hi
  rw [memcpy_overlap_apply _ _ _ _ _ (Nat.zero_le w), if_pos (by omega)]
  simp

/-! ## Table lemmas -/

theorem get_client_log (N : Nat) (s : State) (x : Call) (fd : Int) :
    get_client N (log s x) fd = get_client N s fd := rfl

theorem get_client_set_errno (N : Nat) (s : State) (e : Int) (fd : Int) :
    get_client N (set_errno s e) fd = get_client N s fd := rfl

theorem get_client_range {N : Nat} {s : State} {fd : Int} {c : client_t}
    (h : get_client N s fd = some c) :
    ¬ (fd ≤ 0 ∨ fd ≥ (N : Int)) ∧ s.g_clients fd = some c := by
  unfold get_client at h
  by_cases hr : fd ≤ 0 ∨ fd ≥ (N : Int)
  · rw [if_pos hr] at h
    exact absurd h (by simp)
  · rw [if_neg hr] at h
    exact ⟨hr, h⟩

theorem get_client_set_same {N : Nat} (s : State) {fd : Int} (p : Option client_t)
    (hr : ¬ (fd ≤ 0 ∨ fd ≥ (N : Int))) :
    get_client N (set_client s fd p) fd = p := by
  simp [get_client, set_client, hr]

theorem get_client_set_other (N : Nat) (s : State) (fd g : Int) (p : Option client_t)
    (hg : g ≠ fd) :
    get_client N (set_client s fd p) g = get_client N s g := by
  simp [get_client, set_client, hg]

theorem write_len_eq (n : Nat) : (if n < 8 then n else 8) = min n 8 := by
  split <;> omega

/-! ## `write_data` -/

theorem write_data_took {N : Nat} {s : State} {fd : Int} {c : client_t}
    (hc : get_client N s fd = some c) (hw : c.wlen ≠ 0) (k : Nat) :
    write_data N s fd (WriteRes.took k) =
      (((min k (min c.wlen 8) : Nat) : Int),
        set_client
          (log (log s (Call.write c.fd (min c.wlen 8) (bytes c.wbuf (min k (min c.wlen 8)))))
            (Call.memcpy 0 (c.wlen - min k (min c.wlen 8))))
          fd
          (some { c with
            wbuf := memcpy_overlap c.wbuf 0 (min k (min c.wlen 8)) (c.wlen - min k (min c.wlen 8)),
            wlen := c.wlen - min k (min c.wlen 8) })) := by
  simp only [write_data, hc, if_neg hw, write_len_eq]

theorem write_data_fail {N : Nat} {s : State} {fd : Int} {c : client_t}
    (hc : get_client N s fd = some c) (hw : c.wlen ≠ 0) (e : Int) :
    write_data N s fd (WriteRes.fail e) =
      (-1, set_errno (log s (Call.write c.fd (min c.wlen 8) [])) e) := by
  simp only [write_data, hc, if_neg hw, write_len_eq]

theorem write_data_empty {N : Nat} {s : State} {fd : Int} {c : client_t}
    (hc : get_client N s fd = some c) (hw : c.wlen = 0) (r : WriteRes) :
    write_data N s fd r = (0, s) := by
  simp only [write_data, hc, if_pos hw]

theorem write_data_absent {N : Nat} {s : State} {fd : Int}
    (hc : get_client N s fd = none) (r : WriteRes) :
    write_data N s fd r = (-1, s) := by
  simp only [write_data, hc]

/-- One call of `write_data` on a tracked connection: the record stays in
its slot, what was sent plus what is pending is unchanged, and at most 8
bytes leave the buffer. -/
theorem write_data_step {N : Nat} {s : State} {fd : Int} {c : client_t}
    (hc : get_client N s fd = some c) (r : WriteRes) :
    ∃ c1, get_client N (write_data N s fd r).2 fd = some c1 ∧ c1.fd = c.fd ∧
      sent (write_data N s fd r).2.trace c.fd ++ bytes c1.wbuf c1.wlen =
        sent s.trace c.fd ++ bytes c.wbuf c.wlen ∧
      c1.wlen ≤ c.wlen ∧ c.wlen ≤ c1.wlen + 8 ∧
      c1.rbuf = c.rbuf ∧ c1.rlen = c.rlen ∧ c1.events = c.events := by
  by_cases hw : c.wlen = 0
  · rw [write_data_empty hc hw]
    exact ⟨c, hc, rfl, rfl, le_refl _, by omega, rfl, rfl, rfl⟩
  · cases r with
    | took k =>
      rw [write_data_took hc hw]
      refine ⟨_, get_client_set_same _ _ (get_client_range hc).1, rfl, ?_, ?_, ?_, rfl, rfl, rfl⟩
      · simp only [set_client, log, sent, if_pos, List.append_assoc]
        rw [bytes_memcpy_overlap]
        omega
      · simp only
        omega
      · simp only
        omega
    | fail e =>
      rw [write_data_fail hc hw]
      refine ⟨c, hc, rfl, ?_, le_refl _, by omega, rfl, rfl, rfl⟩
      simp [set_errno, log, sent]

theorem write_run_step {N : Nat} (fd : Int) (rs : List WriteRes) :
    ∀ (s : State) (c : client_t), get_client N s fd = some c →
    ∃ c1, get_client N (write_run N s fd rs) fd = some c1 ∧ c1.fd = c.fd ∧
      sent (write_run N s fd rs).trace c.fd ++ bytes c1.wbuf c1.wlen =
        sent s.trace c.fd ++ bytes c.wbuf c.wlen ∧
      c1.wlen ≤ c.wlen ∧ c.wlen ≤ c1.wlen + 8 * rs.length := by
  induction rs with
  | nil =>
    intro s c hc
    exact ⟨c, hc, rfl, rfl, le_refl _, by simp⟩
  | cons r rs ih =>
    intro s c hc
    obtain ⟨c1, h1, hfd, hs, hle, hge, -, -, -⟩ := write_data_step hc r
    obtain ⟨c2, h2, hfd2, hs2, hle2, hge2⟩ := ih _ c1 h1
    refine ⟨c2, h2, hfd2.trans hfd, ?_, by omega, ?_⟩
    · rw [← hs, ← hfd]
      exact hs2
    · simp only [List.length_cons]
      omega

theorem write_run_ones {N : Nat} (fd : Int) (k : Nat) :
    ∀ (s : State) (c : client_t), get_client N s fd = some c → k ≤ c.wlen →
    ∃ c1, get_client N (write_run N s fd (List.replicate k (WriteRes.took 1))) fd = some c1 ∧
      c1.fd = c.fd ∧ c1.wlen = c.wlen - k ∧
      (∀ i, i < c.wlen - k → c1.wbuf i = c.wbuf (k + i)) ∧
      sent (write_run N s fd (List.replicate k (WriteRes.took 1))).trace c.fd =
        sent s.trace c.fd ++ bytes c.wbuf k := by
  induction k with
  | zero =>
    intro s c hc _
    exact ⟨c, hc, rfl, rfl, by simp, by simp [write_run, bytes_zero]⟩
  | succ k ih =>
    intro s c hc hk
    have hw : c.wlen ≠ 0 := by omega
    have hm : min 1 (min c.wlen 8) = 1 := by omega
    have h1 := write_data_took hc hw 1
    rw [hm] at h1
    simp only [List.replicate_succ, write_run, h1]
    obtain ⟨c2, h2, hfd2, hl2, hb2, hs2⟩ :=
      ih _ { c with wbuf := memcpy_overlap c.wbuf 0 1 (c.wlen - 1), wlen := c.wlen - 1 }
        (get_client_set_same (N := N) _ _ (get_client_range hc).1)
        (show k ≤ c.wlen - 1 by omega)
    refine ⟨c2, h2, hfd2, by rw [hl2]; first | omega | (dsimp only; omega), ?_, ?_⟩
    · intro i hi
      rw [hb2 i (by first | omega | (dsimp only; omega))]
      simp only
      rw [memcpy_overlap_apply _ _ _ _ _ (Nat.zero_le 1), if_pos (by omega)]
      congr 1
      omega
    · simp only at hs2
      rw [hs2]
      simp only [set_client, log, sent, if_pos, List.append_assoc]
      congr 1
      rw [Nat.add_comm k 1, bytes_add]
      congr 1
      apply bytes_congr
      intro i hi
      rw [memcpy_overlap_apply _ _ _ _ _ (Nat.zero_le 1), if_pos (by omega)]
      simp

/-! ## Partial writes (C4, C6) -/

/-- C4. Partial-write compaction: when the `write` inside `write_data`
accepts `w` bytes (`w ≤ min wlen 8`) of a connection with `wlen > 0`, the
call returns `w`, the new `wlen` is the old one minus `w`, the first
`wlen - w` bytes of `wbuf` are the old bytes at offsets `w .. wlen - 1`, and
the bytes handed to the transport are the first `w` old bytes.  Hence, over
any run of `write_data` calls, the bytes sent followed by the bytes still
pending are the bytes that were pending at the start (nothing is sent
twice), in particular over `k` back-to-back writes of one byte each. -/
theorem write_data_compacts (N : Nat) (s : State) (fd : Int) (c : client_t) (w : Nat)
    (hc : get_client N s fd = some c) (hpos : 0 < c.wlen) (hw : w ≤ min c.wlen 8) :
    (write_data N s fd (WriteRes.took w)).1 = (w : Int) ∧
    (∃ c1, get_client N (write_data N s fd (WriteRes.took w)).2 fd = some c1 ∧
      c1.wlen = c.wlen - w ∧
      (∀ i, i < c.wlen - w → c1.wbuf i = c.wbuf (w + i)) ∧
      sent (write_data N s fd (WriteRes.took w)).2.trace c.fd =
        sent s.trace c.fd ++ bytes c.wbuf w) ∧
    (∀ rs : List WriteRes, ∃ c2, get_client N (write_run N s fd rs) fd = some c2 ∧
      sent (write_run N s fd rs).trace c.fd ++ bytes c2.wbuf c2.wlen =
        sent s.trace c.fd ++ bytes c.wbuf c.wlen) ∧
    (∀ k, k ≤ c.wlen →
      ∃ c2, get_client N (write_run N s fd (List.replicate k (WriteRes.took 1))) fd = some c2 ∧
        c2.wlen = c.wlen - k ∧
        (∀ i, i < c.wlen - k → c2.wbuf i = c.wbuf (k + i)) ∧
        sent (write_run N s fd (List.replicate k (WriteRes.took 1))).trace c.fd =
          sent s.trace c.fd ++ bytes c.wbuf k) := by
  have hne : c.wlen ≠ 0 := by omega
  have hm : min w (min c.wlen 8) = w := by omega
  have h1 := write_data_took hc hne w
  rw [hm] at h1
  refine ⟨by rw [h1], ?_, ?_, ?_⟩
  · rw [h1]
    refine ⟨_, get_client_set_same _ _ (get_client_range hc).1, rfl, ?_, ?_⟩
    · intro i hi
      simp only
      rw [memcpy_overlap_apply _ _ _ _ _ (Nat.zero_le w), if_pos (by omega)]
      congr 1
    · simp [set_client, log, sent]
  · intro rs
    obtain ⟨c2, h2, -, hs, -, -⟩ := write_run_step (N := N) fd rs s c hc
    exact ⟨c2, h2, hs⟩
  · intro k hk
    obtain ⟨c2, h2, -, hl, hb, hs⟩ := write_run_ones (N := N) fd k s c hc hk
    exact ⟨c2, h2, hl, hb, hs⟩

/-- Witness for C4: three of twenty pending bytes are accepted. -/
theorem write_data_compacts_witness :
    get_client 1024 sample_state 5 = some sample_client ∧ 0 < sample_client.wlen ∧
    3 ≤ min sample_client.wlen 8 ∧
    (write_data 1024 sample_state 5 (WriteRes.took 3)).1 = ((3 : Nat) : Int) :=
  ⟨rfl, by decide, by decide,
    (write_data_compacts 1024 sample_state 5 sample_client 3 rfl (by decide) (by decide)).1⟩

/-- C6. Write cap and flush count: a `write_data` call on a connection with
pending bytes issues one `write` of exactly `min wlen 8` bytes (none at all
when nothing is pending), so a call removes at most 8 bytes; hence a run of
`write_data` calls that brings `wlen` from `M` to 0 has at least
`⌈M / 8⌉` calls. -/
theorem write_cap_flush_count (N : Nat) (s : State) (fd : Int) (c : client_t)
    (hc : get_client N s fd = some c) :
    (∀ r : WriteRes,
      (c.wlen = 0 → (write_data N s fd r).2.trace = s.trace) ∧
      (0 < c.wlen →
        (write_data N s fd r).2.trace = Call.write c.fd (min c.wlen 8) [] :: s.trace ∨
        ∃ w, w ≤ min c.wlen 8 ∧
          (write_data N s fd r).2.trace =
            Call.memcpy 0 (c.wlen - w) ::
              Call.write c.fd (min c.wlen 8) (bytes c.wbuf w) :: s.trace) ∧
      ∃ c1, get_client N (write_data N s fd r).2 fd = some c1 ∧
        c1.wlen ≤ c.wlen ∧ c.wlen ≤ c1.wlen + 8) ∧
    (∀ rs : List WriteRes, ∃ c2, get_client N (write_run N s fd rs) fd = some c2 ∧
      (c2.wlen = 0 → (c.wlen + 7) / 8 ≤ rs.length)) := by
  constructor
  · intro r
    refine ⟨?_, ?_, ?_⟩
    · intro h0
      rw [write_data_empty hc h0]
    · intro hpos
      have hne : c.wlen ≠ 0 := by omega
      cases r with
      | took k =>
        right
        refine ⟨min k (min c.wlen 8), by omega, ?_⟩
        rw [write_data_took hc hne]
        rfl
      | fail e =>
        left
        rw [write_data_fail hc hne]
        rfl
    · obtain ⟨c1, h1, -, -, hle, hge, -, -, -⟩ := write_data_step hc r
      exact ⟨c1, h1, hle, hge⟩
  · intro rs
    obtain ⟨c2, h2, -, -, -, hge⟩ := write_run_step (N := N) fd rs s c hc
    refine ⟨c2, h2, ?_⟩
    intro h0
    omega

/-- Witness for C6 on the sample connection. -/
theorem write_cap_flush_count_witness :
    get_client 1024 sample_state 5 = some sample_client ∧
    ∃ c2, get_client 1024
        (write_run 1024 sample_state 5
          [WriteRes.took 8, WriteRes.took 8, WriteRes.took 8]) 5 = some c2 ∧
      (c2.wlen = 0 → (sample_client.wlen + 7) / 8 ≤ 3) :=
  ⟨rfl, (write_cap_flush_count 1024 sample_state 5 sample_client rfl).2
    [WriteRes.took 8, WriteRes.took 8, WriteRes.took 8]⟩

/-! ## The client table (C7) -/

theorem add_client_fresh {N : Nat} {s : State} {fd : Int} (ev : Nat)
    (hc : get_client N s fd = none) :
    add_client N s fd ev =
      (some { calloc_client with fd := fd, events := ev },
        set_client s fd (some { calloc_client with fd := fd, events := ev })) := by
  simp only [add_client, hc]

theorem add_client_exists {N : Nat} {s : State} {fd : Int} {c : client_t} (ev : Nat)
    (hc : get_client N s fd = some c) :
    add_client N s fd ev = (none, s) := by
  simp only [add_client, hc]

/-- C7 (the code at the failing inputs). `add_client` applies no range test
of its own: for the handle 0, and for the handle `MAX_CLIENT_CNT`, which
`get_client` reports as absent, it returns a record and stores it in
`g_clients[fd]`, yet a following `get_client(fd)` still yields nothing. -/
theorem add_client_out_of_range (N : Nat) (s : State) (ev : Nat) :
    ((add_client N s 0 ev).1.isSome = true ∧
      ((add_client N s 0 ev).2.g_clients 0).isSome = true ∧
      get_client N (add_client N s 0 ev).2 0 = none) ∧
    ((add_client N s (N : Int) ev).1.isSome = true ∧
      ((add_client N s (N : Int) ev).2.g_clients (N : Int)).isSome = true ∧
      get_client N (add_client N s (N : Int) ev).2 (N : Int) = none) := by
  have h0 : get_client N s 0 = none := by simp [get_client]
  have hN : get_client N s (N : Int) = none := by simp [get_client]
  rw [add_client_fresh ev h0, add_client_fresh ev hN]
  simp [get_client, set_client]

/-- The part of C7 that holds: inside the valid range `add_client` and
`get_client` round-trip, and an existing entry makes `add_client` return
nothing and change nothing. -/
theorem add_client_in_range (N : Nat) (s : State) (fd : Int) (ev : Nat)
    (hlo : 0 < fd) (hhi : fd < (N : Int)) :
    (∀ c, get_client N s fd = some c → add_client N s fd ev = (none, s)) ∧
    (get_client N s fd = none →
      ∃ c, (add_client N s fd ev).1 = some c ∧
        get_client N (add_client N s fd ev).2 fd = some c ∧
        c.fd = fd ∧ c.events = ev ∧ c.rlen = 0 ∧ c.wlen = 0 ∧
        ∀ g, g ≠ fd → get_client N (add_client N s fd ev).2 g = get_client N s g) := by
  constructor
  · intro c hc
    exact add_client_exists ev hc
  · intro hc
    rw [add_client_fresh ev hc]
    refine ⟨_, rfl, get_client_set_same _ _ (by omega), rfl, rfl, rfl, rfl, ?_⟩
    intro g hg
    exact get_client_set_other N s fd g _ hg

/-! ## The echo invariant -/

theorem get_client_congr {N : Nat} {s s1 : State} {g : Int}
    (h : s1.g_clients g = s.g_clients g) : get_client N s1 g = get_client N s g := by
  unfold get_client
  rw [h]

/-- The echo law survives a step that leaves the slot and the traffic of the
handle alone. -/
theorem echo_law_frame {N : Nat} {s s1 : State} {g : Int}
    (hslot : s1.g_clients g = s.g_clients g)
    (hsent : sent (life s1.trace g) g = sent (life s.trace g) g)
    (hrecv : recv (life s1.trace g) g = recv (life s.trace g) g)
    (h : echo_law N s g) : echo_law N s1 g := by
  unfold echo_law at h ⊢
  rw [get_client_congr hslot, hsent, hrecv]
  exact h

/-- A step on the record in slot `fd` that keeps its descriptor, opens and
closes nothing, touches the traffic of no other handle and keeps the echo
equation of the record keeps the whole invariant. -/
theorem inv_step {N : Nat} {s s1 : State} {fd : Int} {c c1 : client_t}
    (hinv : conn_inv N s)
    (hc : get_client N s fd = some c)
    (hslot : s1.g_clients = fun k => if k = fd then some c1 else s.g_clients k)
    (hfd : c1.fd = c.fd)
    (hopen : ∀ k, is_open s.trace k = true → is_open s1.trace k = true)
    (hother : ∀ g, g ≠ fd →
      sent (life s1.trace g) g = sent (life s.trace g) g ∧
        recv (life s1.trace g) g = recv (life s.trace g) g)
    (heq : sent (life s.trace fd) fd ++ bytes c.wbuf c.wlen ++ bytes c.rbuf c.rlen =
        recv (life s.trace fd) fd →
      sent (life s1.trace fd) fd ++ bytes c1.wbuf c1.wlen ++ bytes c1.rbuf c1.rlen =
        recv (life s1.trace fd) fd) :
    conn_inv N s1 := by
  obtain ⟨hwf, hto, hecho⟩ := hinv
  obtain ⟨hr, hg⟩ := get_client_range hc
  have hcfd : c.fd = fd := hwf fd c hg
  refine ⟨?_, ?_, ?_⟩
  · intro k d hk
    rw [hslot] at hk
    by_cases hkf : k = fd
    · simp only [hkf, if_true, Option.some.injEq] at hk
      rw [hkf, ← hk, hfd, hcfd]
    · simp only [hkf, if_false] at hk
      exact hwf k d hk
  · intro k d hk
    apply hopen
    rw [hslot] at hk
    by_cases hkf : k = fd
    · rw [hkf]
      exact hto fd c hg
    · simp only [hkf, if_false] at hk
      exact hto k d hk
  · intro g
    by_cases hgf : g = fd
    · subst hgf
      have h1 := hecho g
      unfold echo_law at h1 ⊢
      rw [hc] at h1
      have h2 : get_client N s1 g = some c1 := by
        simp [get_client, hslot, hr]
      rw [h2]
      exact heq h1
    · refine echo_law_frame (s := s) ?_ (hother g hgf).1 (hother g hgf).2 (hecho g)
      rw [hslot]
      simp [hgf]

/-- The invariant survives a step that leaves the table alone, opens and
closes nothing and adds no traffic. -/
theorem inv_frame {N : Nat} {s s1 : State}
    (hinv : conn_inv N s)
    (hslot : s1.g_clients = s.g_clients)
    (htr : ∀ g, sent (life s1.trace g) g = sent (life s.trace g) g ∧
      recv (life s1.trace g) g = recv (life s.trace g) g ∧
      (is_open s.trace g = true → is_open s1.trace g = true)) :
    conn_inv N s1 := by
  obtain ⟨hwf, hto, hecho⟩ := hinv
  refine ⟨?_, ?_, ?_⟩
  · intro k d hk
    rw [hslot] at hk
    exact hwf k d hk
  · intro k d hk
    rw [hslot] at hk
    exact (htr k).2.2 (hto k d hk)
  · intro g
    exact echo_law_frame (by rw [hslot]) (htr g).1 (htr g).2.1 (hecho g)

theorem del_client_absent (N : Nat) (s : State) (fd : Int) :
    get_client N (del_client N s fd).2 fd = none := by
  unfold del_client
  cases hc : get_client N s fd with
  | none => simpa using hc
  | some c =>
    simp only
    simp [get_client, set_client]

theorem del_client_inv {N : Nat} {s : State} (fd : Int) (hinv : conn_inv N s) :
    conn_inv N (del_client N s fd).2 := by
  unfold del_client
  cases hc : get_client N s fd with
  | none => exact hinv
  | some c =>
    obtain ⟨hwf, hto, hecho⟩ := hinv
    simp only
    refine ⟨?_, ?_, ?_⟩
    · intro k d hk
      by_cases hkf : k = fd
      · simp [set_client, hkf] at hk
      · simp only [set_client, hkf, if_false] at hk
        split at hk <;> exact hwf k d hk
    · intro k d hk
      by_cases hkf : k = fd
      · simp [set_client, hkf] at hk
      · have hfk : ¬ fd = k := fun h => hkf h.symm
        have hk2 : s.g_clients k = some d := by
          simp only [set_client, hkf, if_false] at hk
          split at hk <;> exact hk
        have h3 := hto k d hk2
        split <;> simp [set_client, log, is_open, hfk, h3]
    · intro g
      by_cases hgf : g = fd
      · subst hgf
        unfold echo_law
        rw [get_client_set_same _ _ (get_client_range hc).1]
        simp [set_client, log, life, sent, recv]
      · have hfg : ¬ fd = g := fun h => hgf h.symm
        refine echo_law_frame (s := s) ?_ ?_ ?_ (hecho g)
        · simp [set_client, hgf]
          split <;> rfl
        · split <;> simp [set_client, log, life, sent, hfg]
        · split <;> simp [set_client, log, life, recv, hfg]

theorem add_client_inv {N : Nat} {s : State} (fd : Int) (ev : Nat)
    (hopen : is_open s.trace fd = true) (hinv : conn_inv N s) :
    conn_inv N (add_client N s fd ev).2 := by
  cases hc : get_client N s fd with
  | some c =>
    rw [add_client_exists ev hc]
    exact hinv
  | none =>
    obtain ⟨hwf, hto, hecho⟩ := hinv
    rw [add_client_fresh ev hc]
    dsimp only
    refine ⟨?_, ?_, ?_⟩
    · intro k d hk
      by_cases hkf : k = fd
      · simp only [set_client, hkf, if_true, Option.some.injEq] at hk
        rw [hkf, ← hk]
      · simp only [set_client, hkf, if_false] at hk
        exact hwf k d hk
    · intro k d hk
      by_cases hkf : k = fd
      · rw [hkf]
        exact hopen
      · simp only [set_client, hkf, if_false] at hk
        exact hto k d hk
    · intro g
      by_cases hgf : g = fd
      · subst hgf
        have h1 := hecho g
        unfold echo_law at h1 ⊢
        rw [hc] at h1
        by_cases hr : g ≤ 0 ∨ g ≥ (N : Int)
        · have h2 : get_client N (set_client s g
              (some { calloc_client with fd := g, events := ev })) g = none := by
            simp [get_client, hr]
          rw [h2]
          exact h1
        · rw [get_client_set_same _ _ hr]
          simpa [bytes_zero, calloc_client] using h1
      · refine echo_law_frame (s := s) ?_ rfl rfl (hecho g)
        simp [set_client, hgf]

/-- Calls other than `accept` do not bear on `fresh_accepts`; `accept_data`
makes one `accept`, and the traces before it are as fresh as the one
after. -/
theorem accept_data_fresh (s : State) (lfd : Int) (r1 r2 : Option Int)
    (h : fresh_accepts (accept_data s lfd r1 r2).2.trace = true) :
    fresh_accepts s.trace = true := by
  unfold accept_data at h
  cases hb : s.backlog with
  | nil =>
    rw [hb] at h
    simp [set_errno, log, fresh_accepts] at h
    exact h
  | cons fd rest =>
    rw [hb] at h
    simp only at h
    by_cases hneg : fd < 0
    · simp only [if_pos hneg] at h
      simp [log, fresh_accepts] at h
      exact h.2
    · simp only [if_neg hneg] at h
      cases r1 with
      | some e =>
        simp [set_nonblocking, log, set_errno, fresh_accepts] at h
        exact h.2
      | none =>
        cases r2 with
        | some e =>
          simp [set_nonblocking, log, set_errno, fresh_accepts] at h
          exact h.2
        | none =>
          simp [set_nonblocking, log, set_errno, fresh_accepts] at h
          exact h.2

/-- The descriptor `accept_data` returns is open. -/
theorem accept_data_opened (s : State) (lfd : Int) (r1 r2 : Option Int)
    (h : ¬ (accept_data s lfd r1 r2).1 < 0) :
    is_open (accept_data s lfd r1 r2).2.trace (accept_data s lfd r1 r2).1 = true := by
  unfold accept_data at h ⊢
  cases hb : s.backlog with
  | nil =>
    rw [hb] at h
    simp at h
  | cons fd rest =>
    rw [hb] at h
    simp only at h ⊢
    by_cases hneg : fd < 0
    · simp [if_pos hneg] at h
    · simp only [if_neg hneg] at h ⊢
      cases r1 with
      | some e => simp [set_nonblocking] at h
      | none =>
        cases r2 with
        | some e => simp [set_nonblocking] at h
        | none => simp [set_nonblocking, log, is_open]

/-- The invariant survives the closing of a descriptor that is not open as
far as the table knows, by a step that leaves the table alone. -/
theorem inv_close_untracked {N : Nat} {s s1 : State} {fd : Int}
    (hinv : conn_inv N s)
    (hclosed : is_open s.trace fd = false)
    (hslot : s1.g_clients = s.g_clients)
    (hlife : life s1.trace fd = [])
    (hother : ∀ g, g ≠ fd →
      sent (life s1.trace g) g = sent (life s.trace g) g ∧
      recv (life s1.trace g) g = recv (life s.trace g) g ∧
      (is_open s.trace g = true → is_open s1.trace g = true)) :
    conn_inv N s1 := by
  obtain ⟨hwf, hto, hecho⟩ := hinv
  have hnot : ∀ d, s.g_clients fd ≠ some d := by
    intro d hd
    have h1 := hto fd d hd
    rw [hclosed] at h1
    exact absurd h1 (by simp)
  refine ⟨?_, ?_, ?_⟩
  · intro k d hk
    rw [hslot] at hk
    exact hwf k d hk
  · intro k d hk
    rw [hslot] at hk
    by_cases hkf : k = fd
    · rw [hkf] at hk
      exact absurd hk (hnot d)
    · exact (hother k hkf).2.2 (hto k d hk)
  · intro g
    by_cases hgf : g = fd
    · subst hgf
      unfold echo_law
      rw [hlife]
      cases hc : get_client N s1 g with
      | none => rfl
      | some d =>
        have h2 := (get_client_range hc).2
        rw [hslot] at h2
        exact absurd h2 (hnot d)
    · exact echo_law_frame (by rw [hslot]) (hother g hgf).1 (hother g hgf).2.1 (hecho g)

theorem accept_data_inv {N : Nat} {s : State} (lfd : Int) (r1 r2 : Option Int)
    (hfresh : fresh_accepts (accept_data s lfd r1 r2).2.trace = true)
    (hinv : conn_inv N s) :
    conn_inv N (accept_data s lfd r1 r2).2 := by
  unfold accept_data at hfresh ⊢
  cases hb : s.backlog with
  | nil =>
    refine inv_frame hinv rfl ?_
    intro g
    simp only [set_errno, log, life, sent, recv, is_open]
    refine ⟨by simp [sent], by simp [recv], ?_⟩
    intro h
    split <;> simp [h]
  | cons fd rest =>
    rw [hb] at hfresh
    simp only at hfresh ⊢
    by_cases hneg : fd < 0
    · simp only [if_pos hneg] at hfresh ⊢
      refine inv_frame hinv rfl ?_
      intro g
      simp only [log, life, sent, recv, is_open]
      refine ⟨by simp [sent], by simp [recv], ?_⟩
      intro h
      split <;> simp [h]
    · simp only [if_neg hneg] at hfresh ⊢
      cases r1 with
      | some e =>
        simp only [set_nonblocking, set_errno, log] at hfresh ⊢
        simp [fresh_accepts, hneg] at hfresh
        refine inv_close_untracked hinv hfresh.1 rfl (by simp [life]) ?_
        intro g hgf
        have hfg : ¬ fd = g := fun h => hgf h.symm
        simp only [life, sent, recv, is_open]
        refine ⟨by simp [sent, hfg], by simp [recv, hfg], ?_⟩
        intro h
        simp [hfg, h]
      | none =>
        cases r2 with
        | some e =>
          simp only [set_nonblocking, set_errno, log] at hfresh ⊢
          simp [fresh_accepts, hneg] at hfresh
          refine inv_close_untracked hinv hfresh.1 rfl (by simp [life]) ?_
          intro g hgf
          have hfg : ¬ fd = g := fun h => hgf h.symm
          simp only [life, sent, recv, is_open]
          refine ⟨by simp [sent, hfg], by simp [recv, hfg], ?_⟩
          intro h
          simp [hfg, h]
        | none =>
          simp only [set_nonblocking, set_errno, log]
          refine inv_frame hinv rfl ?_
          intro g
          simp only [life, sent, recv, is_open]
          refine ⟨by simp [sent], by simp [recv], ?_⟩
          intro h
          split <;> simp [h]

/-- The loop of `read_data` keeps the record in its slot with its write
side untouched, and writes nothing. -/
theorem read_loop_keep {N : Nat} (fd : Int) (reads : List (List Byte)) (rerr : Int) :
    ∀ (s : State) (c : client_t), get_client N s fd = some c →
      (∃ c1, get_client N (read_loop s fd c reads rerr).2 fd = some c1 ∧
        c1.fd = c.fd ∧ c1.events = c.events ∧ c1.wbuf = c.wbuf ∧ c1.wlen = c.wlen) ∧
      (∀ g, writes (read_loop s fd c reads rerr).2.trace g = writes s.trace g ∧
        sent (read_loop s fd c reads rerr).2.trace g = sent s.trace g) := by
  induction reads with
  | nil =>
    intro s c hc
    refine ⟨⟨c, hc, rfl, rfl, rfl, rfl⟩, ?_⟩
    intro g
    simp [read_loop, set_errno, log, sent, writes]
  | cons l rest ih =>
    intro s c hc
    by_cases hl : l.length = 0
    · simp only [read_loop, if_pos hl]
      refine ⟨⟨c, hc, rfl, rfl, rfl, rfl⟩, ?_⟩
      intro g
      simp [log, sent, writes]
    · simp only [read_loop, if_neg hl]
      obtain ⟨hr, -⟩ := get_client_range hc
      obtain ⟨⟨c2, h2, hfd2, hev2, hwb2, hwl2⟩, htr⟩ :=
        ih (set_client (log (log s (Call.read c.fd l)) (Call.memcpy c.rlen l.length)) fd
            (some { c with rbuf := memcpy c.rbuf c.rlen (chunk_buf l) 0 l.length,
                           rlen := c.rlen + l.length }))
          _ (get_client_set_same (N := N) _ _ hr)
      refine ⟨⟨c2, h2, hfd2, hev2, hwb2, hwl2⟩, ?_⟩
      intro g
      rw [(htr g).1, (htr g).2]
      simp [set_client, log, sent, writes]

theorem read_data_keep {N : Nat} {s : State} {fd : Int} {c : client_t}
    (reads : List (List Byte)) (rerr : Int) (hc : get_client N s fd = some c) :
    (∃ c1, get_client N (read_data N s fd reads rerr).2 fd = some c1 ∧
      c1.fd = c.fd ∧ c1.events = c.events ∧ c1.wbuf = c.wbuf ∧ c1.wlen = c.wlen) ∧
    (∀ g, writes (read_data N s fd reads rerr).2.trace g = writes s.trace g ∧
      sent (read_data N s fd reads rerr).2.trace g = sent s.trace g) := by
  simp only [read_data, hc]
  exact read_loop_keep fd reads rerr s c hc

/-- The loop of `read_data` keeps the invariant. -/
theorem read_loop_inv {N : Nat} (fd : Int) (reads : List (List Byte)) (rerr : Int) :
    ∀ (s : State) (c : client_t), conn_inv N s → get_client N s fd = some c →
      conn_inv N (read_loop s fd c reads rerr).2 := by
  induction reads with
  | nil =>
    intro s c hinv hc
    refine inv_frame hinv rfl ?_
    intro g
    simp [read_loop, set_errno, log, life, sent, recv, is_open]
  | cons l rest ih =>
    intro s c hinv hc
    by_cases hl : l.length = 0
    · simp only [read_loop, if_pos hl]
      refine inv_frame hinv rfl ?_
      intro g
      simp [log, life, sent, recv, is_open]
    · simp only [read_loop, if_neg hl]
      obtain ⟨hr, hg⟩ := get_client_range hc
      have hcfd : c.fd = fd := hinv.1 fd c hg
      have hstep := @inv_step N s
        (set_client (log (log s (Call.read c.fd l)) (Call.memcpy c.rlen l.length)) fd
          (some { c with rbuf := memcpy c.rbuf c.rlen (chunk_buf l) 0 l.length,
                         rlen := c.rlen + l.length }))
        fd c _ hinv hc rfl rfl
        (by intro k h; simp [set_client, log, is_open, h])
        (by
          intro g hgf
          have hne : ¬ c.fd = g := by rw [hcfd]; exact fun h => hgf h.symm
          simp [set_client, log, life, sent, recv, hne])
        (by
          intro h
          simp only [set_client, log, life, sent, recv, hcfd, if_true, reduceCtorEq,
            if_false]
          rw [← h, bytes_memcpy, bytes_chunk_buf]
          simp [List.append_assoc])
      exact ih _ _ hstep (get_client_set_same (N := N) _ _ hr)

theorem read_data_inv {N : Nat} {s : State} (fd : Int) (reads : List (List Byte))
    (rerr : Int) (hinv : conn_inv N s) :
    conn_inv N (read_data N s fd reads rerr).2 := by
  unfold read_data
  cases hc : get_client N s fd with
  | none => exact hinv
  | some c => exact read_loop_inv (N := N) fd reads rerr s c hinv hc

theorem read_loop_fresh (fd : Int) (reads : List (List Byte)) (rerr : Int) :
    ∀ (s : State) (c : client_t),
      fresh_accepts (read_loop s fd c reads rerr).2.trace = fresh_accepts s.trace := by
  induction reads with
  | nil =>
    intro s c
    simp [read_loop, set_errno, log, fresh_accepts]
  | cons l rest ih =>
    intro s c
    by_cases hl : l.length = 0
    · simp only [read_loop, if_pos hl]
      simp [log, fresh_accepts]
    · simp only [read_loop, if_neg hl]
      rw [ih]
      simp [set_client, log, fresh_accepts]

theorem read_data_fresh (N : Nat) (s : State) (fd : Int) (reads : List (List Byte))
    (rerr : Int) :
    fresh_accepts (read_data N s fd reads rerr).2.trace = fresh_accepts s.trace := by
  unfold read_data
  cases hc : get_client N s fd with
  | none => rfl
  | some c => exact read_loop_fresh fd reads rerr s c

/-! ## `write_data`, `handle_data`, `handle_write_events` -/

theorem del_client_count (N : Nat) (s : State) (fd : Int) :
    ∀ g, writes (del_client N s fd).2.trace g = writes s.trace g ∧
      sent (del_client N s fd).2.trace g = sent s.trace g := by
  intro g
  unfold del_client
  cases hc : get_client N s fd with
  | none => exact ⟨rfl, rfl⟩
  | some c =>
    simp only
    split <;> simp [set_client, log, sent, writes]

/-- One call of `write_data` makes at most one `write`, of at most 8
bytes. -/
theorem write_data_count (N : Nat) (s : State) (fd : Int) (r : WriteRes) :
    ∀ g, writes s.trace g ≤ writes (write_data N s fd r).2.trace g ∧
      writes (write_data N s fd r).2.trace g ≤ writes s.trace g + 1 ∧
      (sent (write_data N s fd r).2.trace g).length ≤ (sent s.trace g).length + 8 := by
  intro g
  cases hc : get_client N s fd with
  | none =>
    rw [write_data_absent hc]
    exact ⟨le_refl _, Nat.le_add_right _ _, Nat.le_add_right _ _⟩
  | some c =>
    by_cases hw : c.wlen = 0
    · rw [write_data_empty hc hw]
      exact ⟨le_refl _, Nat.le_add_right _ _, Nat.le_add_right _ _⟩
    · cases r with
      | took k =>
        rw [write_data_took hc hw]
        simp only [set_client, log, sent, writes]
        split
        · simp only [List.length_append, bytes_length]
          omega
        · omega
      | fail e =>
        rw [write_data_fail hc hw]
        simp only [set_errno, log, sent, writes]
        split
        · simp only [List.append_nil]
          omega
        · omega

theorem write_data_inv {N : Nat} {s : State} (fd : Int) (r : WriteRes)
    (hinv : conn_inv N s) :
    conn_inv N (write_data N s fd r).2 := by
  cases hc : get_client N s fd with
  | none =>
    rw [write_data_absent hc]
    exact hinv
  | some c =>
    obtain ⟨hr, hg⟩ := get_client_range hc
    have hcfd : c.fd = fd := hinv.1 fd c hg
    by_cases hw : c.wlen = 0
    · rw [write_data_empty hc hw]
      exact hinv
    · cases r with
      | took k =>
        rw [write_data_took hc hw]
        refine inv_step (N := N) hinv hc rfl rfl ?_ ?_ ?_
        · intro g h
          simp [set_client, log, is_open, h]
        · intro g hgf
          have hne : ¬ c.fd = g := by rw [hcfd]; exact fun h => hgf h.symm
          simp [set_client, log, life, sent, recv, hne]
        · intro h
          simp only [set_client, log, life, sent, recv, hcfd, if_true, reduceCtorEq,
            if_false]
          rw [← h, List.append_assoc (sent (life s.trace fd) fd),
            bytes_memcpy_overlap _ _ _ (by omega)]
      | fail e =>
        rw [write_data_fail hc hw]
        refine inv_frame hinv rfl ?_
        intro g
        simp [set_errno, log, life, sent, recv, is_open]

theorem write_data_fresh (N : Nat) (s : State) (fd : Int) (r : WriteRes) :
    fresh_accepts (write_data N s fd r).2.trace = fresh_accepts s.trace := by
  cases hc : get_client N s fd with
  | none => rw [write_data_absent hc]
  | some c =>
    by_cases hw : c.wlen = 0
    · rw [write_data_empty hc hw]
    · cases r with
      | took k =>
        rw [write_data_took hc hw]
        simp [set_client, log, fresh_accepts]
      | fail e =>
        rw [write_data_fail hc hw]
        simp [set_errno, log, fresh_accepts]

theorem del_client_fresh (N : Nat) (s : State) (fd : Int) :
    fresh_accepts (del_client N s fd).2.trace = fresh_accepts s.trace := by
  unfold del_client
  cases hc : get_client N s fd with
  | none => rfl
  | some c =>
    simp only
    split <;> simp [set_client, log, fresh_accepts]

/-- The state after the copy at the start of `handle_data` (lines 145-150). -/
theorem handle_data_move {N : Nat} {s : State} {fd : Int} {c : client_t} (B : Nat)
    (hc : get_client N s fd = some c) :
    ∃ s1 c1, get_client N s1 fd = some c1 ∧ c1.fd = c.fd ∧ c1.events = c.events ∧
      (∀ g, writes s1.trace g = writes s.trace g ∧ sent s1.trace g = sent s.trace g) ∧
      (fresh_accepts s1.trace = fresh_accepts s.trace ∧
        (conn_inv N s → conn_inv N s1) ∧ (events_ok s → events_ok s1)) ∧
      handle_data N B s fd =
        fun r =>
          if (write_data N s1 fd r).1 < 0 ∧ (write_data N s1 fd r).2.errno ≠ EAGAIN ∧
              (write_data N s1 fd r).2.errno ≠ EINTR then
            some (-1, (del_client N (write_data N s1 fd r).2 fd).2)
          else some (1, (write_data N s1 fd r).2) := by
  obtain ⟨hr, hg⟩ := get_client_range hc
  by_cases hl : c.rlen > 0
  · refine ⟨set_client (log s (Call.memcpy c.wlen c.rlen)) fd
        (some { c with wbuf := memcpy c.wbuf c.wlen c.rbuf 0 c.rlen,
                       wlen := c.wlen + c.rlen,
                       rbuf := memset0 c.rbuf B,
                       rlen := 0 }), _,
      get_client_set_same _ _ hr, rfl, rfl, ?_, ?_, ?_⟩
    · intro g
      simp [set_client, log, sent, writes]
    · refine ⟨by simp [set_client, log, fresh_accepts], ?_, ?_⟩
      · intro hinv
        refine inv_step (N := N) hinv hc rfl rfl ?_ ?_ ?_
        · intro g h
          simp [set_client, log, is_open, h]
        · intro g _
          simp [set_client, log, life, sent, recv]
        · intro h
          simp only [set_client, log, life, sent, recv, reduceCtorEq, if_false]
          rw [← h, bytes_memcpy, bytes_zero]
          simp [List.append_assoc]
      · intro hev k d hk
        by_cases hkf : k = fd
        · simp only [set_client, hkf, if_true, Option.some.injEq] at hk
          rw [← hk]
          exact hev fd c hg
        · simp only [set_client, hkf, if_false] at hk
          exact hev k d hk
    · funext r
      simp only [handle_data, hc, if_pos hl]
  · refine ⟨s, c, hc, rfl, rfl, fun g => ⟨rfl, rfl⟩, ⟨rfl, fun hinv => hinv, fun h => h⟩, ?_⟩
    funext r
    simp only [handle_data, hc, if_neg hl]

theorem handle_write_events_count (s : State) (fd : Int) (ctl : Option Int) :
    ∀ g, writes (handle_write_events s fd ctl).2.trace g = writes s.trace g ∧
      sent (handle_write_events s fd ctl).2.trace g = sent s.trace g := by
  intro g
  unfold handle_write_events
  cases hc : s.g_clients fd with
  | none => exact ⟨rfl, rfl⟩
  | some c =>
    simp only
    cases ctl <;> (split <;> split <;> simp [set_client, set_errno, log, sent, writes])

/-- Changing the interest of a record, with the `epoll_ctl` call that goes
with it, keeps the invariant. -/
theorem inv_set_events {N : Nat} {s : State} {fd : Int} {c : client_t}
    (hinv : conn_inv N s) (hg : s.g_clients fd = some c)
    (op : Nat) (ev : Nat) :
    conn_inv N (set_client (log s (Call.epoll_ctl op c.fd ev)) fd
        (some { c with events := ev })) := by
  obtain ⟨hwf, hto, hecho⟩ := hinv
  refine ⟨?_, ?_, ?_⟩
  · intro k d hk
    by_cases hkf : k = fd
    · simp only [set_client, hkf, if_true, Option.some.injEq] at hk
      rw [hkf, ← hk]
      exact hwf fd c hg
    · simp only [set_client, hkf, if_false] at hk
      exact hwf k d hk
  · intro k d hk
    by_cases hkf : k = fd
    · rw [hkf]
      simpa [set_client, log, is_open] using hto fd c hg
    · simp only [set_client, hkf, if_false] at hk
      simpa [set_client, log, is_open] using hto k d hk
  · intro g
    have h1 := hecho g
    unfold echo_law at h1 ⊢
    simp only [set_client, log, life, sent, recv, reduceCtorEq, if_false]
    unfold get_client at h1 ⊢
    by_cases hr : g ≤ 0 ∨ g ≥ (N : Int)
    · simp only [if_pos hr] at h1 ⊢
      exact h1
    · simp only [if_neg hr] at h1 ⊢
      by_cases hgf : g = fd
      · subst hgf
        rw [hg] at h1
        simpa using h1
      · simp only [hgf, if_false]
        exact h1

theorem handle_write_events_inv {N : Nat} {s : State} (fd : Int) (ctl : Option Int)
    (hinv : conn_inv N s) :
    conn_inv N (handle_write_events s fd ctl).2 := by
  unfold handle_write_events
  cases hg : s.g_clients fd with
  | none => exact hinv
  | some c =>
    have hfail : ∀ (op ev : Nat) (e : Int),
        conn_inv N (set_errno (log s (Call.epoll_ctl op c.fd ev)) e) := by
      intro op ev e
      refine inv_frame hinv rfl ?_
      intro g
      simp [set_errno, log, life, sent, recv, is_open]
    simp only
    split
    · split
      · cases ctl with
        | none => exact inv_set_events hinv hg _ _
        | some e => exact hfail _ _ e
      · exact hinv
    · split
      · cases ctl with
        | none => exact inv_set_events hinv hg _ _
        | some e => exact hfail _ _ e
      · exact hinv

theorem handle_write_events_fresh (s : State) (fd : Int) (ctl : Option Int) :
    fresh_accepts (handle_write_events s fd ctl).2.trace = fresh_accepts s.trace := by
  unfold handle_write_events
  cases hc : s.g_clients fd with
  | none => rfl
  | some c =>
    simp only
    cases ctl <;> (split <;> split <;> simp [set_client, set_errno, log, fresh_accepts])

theorem or_epollout_ne_zero (e : Nat) : (e ||| EPOLLOUT) &&& EPOLLOUT ≠ 0 := by
  intro h
  have h2 := congrArg (fun x => Nat.testBit x 2) h
  have h4 : Nat.testBit EPOLLOUT 2 = true := by decide
  simp [Nat.testBit_and, Nat.testBit_or, h4] at h2

theorem and_mask_epollout (e : Nat) : (e &&& 4294967291) &&& EPOLLOUT = 0 := by
  have h : (4294967291 : Nat) &&& EPOLLOUT = 0 := by decide
  rw [Nat.and_assoc, h, Nat.and_zero]

/-- After a successful `handle_write_events` the record in the slot has
`EPOLLOUT` in its interest exactly when its write buffer is not empty. -/
theorem handle_write_events_flag (s : State) (fd : Int) :
    ∀ c, (handle_write_events s fd none).2.g_clients fd = some c →
      (c.events &&& EPOLLOUT ≠ 0 ↔ 0 < c.wlen) := by
  intro c1 h1
  unfold handle_write_events at h1
  cases hg : s.g_clients fd with
  | none =>
    rw [hg] at h1
    simp only at h1
    rw [hg] at h1
    exact absurd h1 (by simp)
  | some c =>
    rw [hg] at h1
    simp only at h1
    by_cases hw : c.wlen > 0
    · rw [if_pos hw] at h1
      by_cases hf : c.events &&& EPOLLOUT = 0
      · rw [if_pos hf] at h1
        simp only [set_client, if_true, Option.some.injEq] at h1
        rw [← h1]
        exact ⟨fun _ => hw, fun _ => or_epollout_ne_zero c.events⟩
      · rw [if_neg hf] at h1
        simp only at h1
        rw [hg] at h1
        cases h1
        exact ⟨fun _ => hw, fun _ => hf⟩
    · rw [if_neg hw] at h1
      by_cases hf : c.events &&& EPOLLOUT ≠ 0
      · rw [if_pos hf] at h1
        simp only [set_client, if_true, Option.some.injEq] at h1
        rw [← h1]
        exact ⟨fun h => absurd (and_mask_epollout c.events) h, fun h => absurd h hw⟩
      · rw [if_neg hf] at h1
        simp only at h1
        rw [hg] at h1
        cases h1
        exact ⟨fun h => absurd h hf, fun h => absurd h hw⟩

/-! ## Interest flags (C2) -/

theorem dispatch_echo_flag {N : Nat} {s : State} {e : Event} {c : client_t} (B : Nat)
    (hc : get_client N s e.fd = some c) (hctl : e.ctl_err = none) :
    ∃ s1, dispatch_echo N B s e = some s1 ∧
      ∀ c1, get_client N s1 e.fd = some c1 → (c1.events &&& EPOLLOUT ≠ 0 ↔ 0 < c1.wlen) := by
  obtain ⟨sm, cm, -, -, -, -, -, hd⟩ := handle_data_move B hc
  have hdel : ∀ x : State, ∀ c1, get_client N (del_client N x e.fd).2 e.fd = some c1 →
      (c1.events &&& EPOLLOUT ≠ 0 ↔ 0 < c1.wlen) := by
    intro x c1 h
    rw [del_client_absent] at h
    exact absurd h (by simp)
  have hhwe : ∀ x : State, ∀ c1,
      get_client N (handle_write_events x e.fd none).2 e.fd = some c1 →
      (c1.events &&& EPOLLOUT ≠ 0 ↔ 0 < c1.wlen) := by
    intro x c1 h
    exact handle_write_events_flag x e.fd c1 (get_client_range h).2
  simp only [dispatch_echo, hd, hctl]
  by_cases h1 : (write_data N sm e.fd e.w1).1 < 0 ∧
      (write_data N sm e.fd e.w1).2.errno ≠ EAGAIN ∧ (write_data N sm e.fd e.w1).2.errno ≠ EINTR
  · simp only [if_pos h1]
    split_ifs
    all_goals first
      | exact ⟨_, rfl, hdel _⟩
      | exact ⟨_, rfl, hhwe _⟩
  · simp only [if_neg h1]
    split_ifs
    all_goals first
      | exact ⟨_, rfl, hdel _⟩
      | exact ⟨_, rfl, hhwe _⟩

/-- C2. Interest-flag invariant: when `run_server` has dispatched an event
for a connection, with the `epoll_ctl` call of `handle_write_events`
succeeding, and the connection is still in the client table, its interest
has `EPOLLOUT` set if and only if its write buffer is non-empty. -/
theorem interest_flag_invariant (N B : Nat) (s : State) (e : Event)
    (hfd : e.fd ≠ s.g_listen_fd) (hctl : e.ctl_err = none) :
    ∃ s1, dispatch N B s e = some s1 ∧
      ∀ c, get_client N s1 e.fd = some c → (c.events &&& EPOLLOUT ≠ 0 ↔ 0 < c.wlen) := by
  have hdel : ∀ x : State, ∀ c1, get_client N (del_client N x e.fd).2 e.fd = some c1 →
      (c1.events &&& EPOLLOUT ≠ 0 ↔ 0 < c1.wlen) := by
    intro x c1 h
    rw [del_client_absent] at h
    exact absurd h (by simp)
  unfold dispatch
  rw [if_neg hfd]
  by_cases hflags : e.events &&& (EPOLLIN ||| EPOLLOUT) = 0
  · rw [if_pos hflags]
    exact ⟨_, rfl, hdel _⟩
  · rw [if_neg hflags]
    cases hc : get_client N s e.fd with
    | none =>
      refine ⟨s, rfl, ?_⟩
      intro c h
      rw [hc] at h
      exact absurd h (by simp)
    | some c =>
      simp only
      by_cases hin : e.events &&& EPOLLIN ≠ 0
      · rw [if_pos hin]
        obtain ⟨⟨c1, h1, -⟩, -⟩ := read_data_keep e.reads e.rerr hc
        split_ifs
        · exact ⟨_, rfl, hdel _⟩
        · exact ⟨_, rfl, hdel _⟩
        · exact dispatch_echo_flag B h1 hctl
      · rw [if_neg hin]
        exact dispatch_echo_flag B hc hctl

/-- Witness for C2: a Readable event delivering twenty bytes to a fresh
connection; eight are written at once, twelve stay pending and `EPOLLOUT`
is registered. -/
theorem interest_flag_invariant_witness :
    (5 : Int) ≠ 3 ∧ (none : Option Int) = none ∧
    ∃ s1, dispatch 1024 4096 (add_client 1024 (init_state 3 []) 5 EPOLLIN).2
        (sample_event 5 EPOLLIN [[1, 2, 3, 4, 5, 6, 7, 8, 9, 10, 11, 12],
          [13, 14, 15, 16, 17, 18, 19, 20]] (WriteRes.took 100) (WriteRes.took 100)) = some s1 ∧
      ∀ c, get_client 1024 s1 5 = some c → (c.events &&& EPOLLOUT ≠ 0 ↔ 0 < c.wlen) :=
  ⟨by decide, rfl,
    interest_flag_invariant 1024 4096 (add_client 1024 (init_state 3 []) 5 EPOLLIN).2
      (sample_event 5 EPOLLIN [[1, 2, 3, 4, 5, 6, 7, 8, 9, 10, 11, 12],
        [13, 14, 15, 16, 17, 18, 19, 20]] (WriteRes.took 100) (WriteRes.took 100))
      (by decide) rfl⟩

/-! ## Peer closure (C5) -/

theorem epollin_flags (ev : Nat) (h : ev &&& EPOLLIN ≠ 0) :
    ev &&& (EPOLLIN ||| EPOLLOUT) ≠ 0 := by
  intro h0
  apply h
  have h1 : EPOLLIN = (EPOLLIN ||| EPOLLOUT) &&& EPOLLIN := by decide
  rw [h1, ← Nat.and_assoc, h0, Nat.zero_and]

theorem epollout_flags (ev : Nat) (h : ev &&& EPOLLOUT ≠ 0) :
    ev &&& (EPOLLIN ||| EPOLLOUT) ≠ 0 := by
  intro h0
  apply h
  have h1 : EPOLLOUT = (EPOLLIN ||| EPOLLOUT) &&& EPOLLOUT := by decide
  rw [h1, ← Nat.and_assoc, h0, Nat.zero_and]

theorem del_client_close {N : Nat} {s : State} {fd : Int} {c : client_t}
    (hc : get_client N s fd = some c) :
    Call.close fd ∈ (del_client N s fd).2.trace := by
  simp only [del_client, hc]
  simp [set_client, log]

/-- C5. Discard-on-close: when `read_data` returns 0 on a Readable event of
a tracked connection, the dispatch is exactly `read_data` followed by
`del_client`: no echo step and no `write` call, nothing more is sent, the
handle is closed and `get_client` yields nothing afterwards. -/
theorem discard_on_close (N B : Nat) (s : State) (e : Event) (c : client_t)
    (hfd : e.fd ≠ s.g_listen_fd) (hin : e.events &&& EPOLLIN ≠ 0)
    (hc : get_client N s e.fd = some c)
    (hret : (read_data N s e.fd e.reads e.rerr).1 = 0) :
    ∃ s1, dispatch N B s e = some s1 ∧
      s1 = (del_client N (read_data N s e.fd e.reads e.rerr).2 e.fd).2 ∧
      get_client N s1 e.fd = none ∧
      Call.close e.fd ∈ s1.trace ∧
      ∀ g, writes s1.trace g = writes s.trace g ∧ sent s1.trace g = sent s.trace g := by
  obtain ⟨⟨c1, h1, -⟩, htr⟩ := read_data_keep e.reads e.rerr hc
  refine ⟨_, ?_, rfl, del_client_absent _ _ _, del_client_close h1, ?_⟩
  · unfold dispatch
    rw [if_neg hfd, if_neg (epollin_flags _ hin)]
    simp only [hc, if_pos hin, if_pos hret]
  · intro g
    rw [(del_client_count N _ e.fd g).1, (del_client_count N _ e.fd g).2]
    exact htr g

/-- Witness for C5: the sample connection, twenty bytes still unsent,
receives two more bytes and then the end of the stream. -/
theorem discard_on_close_witness :
    (5 : Int) ≠ 3 ∧ EPOLLIN &&& EPOLLIN ≠ 0 ∧
    get_client 1024 sample_state 5 = some sample_client ∧
    (read_data 1024 sample_state 5 [[1, 2], []] EAGAIN).1 = 0 ∧
    ∃ s1, dispatch 1024 4096 sample_state
        (sample_event 5 EPOLLIN [[1, 2], []] (WriteRes.took 8) (WriteRes.took 8)) = some s1 ∧
      s1 = (del_client 1024 (read_data 1024 sample_state 5 [[1, 2], []] EAGAIN).2 5).2 ∧
      get_client 1024 s1 5 = none ∧
      Call.close 5 ∈ s1.trace ∧
      ∀ g, writes s1.trace g = writes sample_state.trace g ∧
        sent s1.trace g = sent sample_state.trace g :=
  ⟨by decide, by decide, rfl, rfl,
    discard_on_close 1024 4096 sample_state
      (sample_event 5 EPOLLIN [[1, 2], []] (WriteRes.took 8) (WriteRes.took 8))
      sample_client (by decide) (by decide) rfl rfl⟩

/-! ## Writable events (C10) -/

theorem dispatch_echo_count {N : Nat} {s : State} {e : Event} {c : client_t} (B : Nat)
    (hc : get_client N s e.fd = some c) :
    ∃ s1, dispatch_echo N B s e = some s1 ∧
      ∀ g, writes s1.trace g ≤ writes s.trace g + 2 ∧
        (sent s1.trace g).length ≤ (sent s.trace g).length + 16 := by
  obtain ⟨sm, cm, -, -, -, hm, -, hd⟩ := handle_data_move B hc
  have key : ∀ x : State, (∀ g, writes x.trace g ≤ writes s.trace g + 2 ∧
        (sent x.trace g).length ≤ (sent s.trace g).length + 16) →
      (∀ g, writes (del_client N x e.fd).2.trace g ≤ writes s.trace g + 2 ∧
        (sent (del_client N x e.fd).2.trace g).length ≤ (sent s.trace g).length + 16) ∧
      (∀ g, writes (handle_write_events x e.fd e.ctl_err).2.trace g ≤ writes s.trace g + 2 ∧
        (sent (handle_write_events x e.fd e.ctl_err).2.trace g).length ≤
          (sent s.trace g).length + 16) := by
    intro x hx
    constructor
    · intro g
      rw [(del_client_count N x e.fd g).1, (del_client_count N x e.fd g).2]
      exact hx g
    · intro g
      rw [(handle_write_events_count x e.fd e.ctl_err g).1,
        (handle_write_events_count x e.fd e.ctl_err g).2]
      exact hx g
  have h1 : ∀ g, writes (write_data N sm e.fd e.w1).2.trace g ≤ writes s.trace g + 1 ∧
      (sent (write_data N sm e.fd e.w1).2.trace g).length ≤ (sent s.trace g).length + 8 := by
    intro g
    have h := write_data_count N sm e.fd e.w1 g
    rw [(hm g).1, (hm g).2] at h
    exact ⟨h.2.1, h.2.2⟩
  have h1d : ∀ g, writes (del_client N (write_data N sm e.fd e.w1).2 e.fd).2.trace g ≤
        writes s.trace g + 1 ∧
      (sent (del_client N (write_data N sm e.fd e.w1).2 e.fd).2.trace g).length ≤
        (sent s.trace g).length + 8 := by
    intro g
    rw [(del_client_count N _ e.fd g).1, (del_client_count N _ e.fd g).2]
    exact h1 g
  have h2 : ∀ x : State, (∀ g, writes x.trace g ≤ writes s.trace g + 1 ∧
        (sent x.trace g).length ≤ (sent s.trace g).length + 8) →
      ∀ g, writes (write_data N x e.fd e.w2).2.trace g ≤ writes s.trace g + 2 ∧
        (sent (write_data N x e.fd e.w2).2.trace g).length ≤ (sent s.trace g).length + 16 := by
    intro x hx g
    have h := write_data_count N x e.fd e.w2 g
    have hx1 := hx g
    omega
  have h3 : ∀ x : State, (∀ g, writes x.trace g ≤ writes s.trace g + 1 ∧
        (sent x.trace g).length ≤ (sent s.trace g).length + 8) →
      ∀ g, writes x.trace g ≤ writes s.trace g + 2 ∧
        (sent x.trace g).length ≤ (sent s.trace g).length + 16 := by
    intro x hx g
    have hx1 := hx g
    omega
  simp only [dispatch_echo, hd]
  by_cases hw1 : (write_data N sm e.fd e.w1).1 < 0 ∧
      (write_data N sm e.fd e.w1).2.errno ≠ EAGAIN ∧ (write_data N sm e.fd e.w1).2.errno ≠ EINTR
  · simp only [if_pos hw1]
    split_ifs
    · exact ⟨_, rfl, (key _ (h2 _ h1d)).1⟩
    · exact ⟨_, rfl, (key _ (h2 _ h1d)).2⟩
    · exact ⟨_, rfl, (key _ (h3 _ h1d)).2⟩
  · simp only [if_neg hw1]
    split_ifs
    · exact ⟨_, rfl, (key _ (h2 _ h1)).1⟩
    · exact ⟨_, rfl, (key _ (h2 _ h1)).2⟩
    · exact ⟨_, rfl, (key _ (h3 _ h1)).2⟩

/-- C10 (amended). A Writable-only event on a tracked connection leads to
at most two `write` calls, the one inside `handle_data` and the one under
`EPOLLOUT`, each of at most 8 bytes: at most 16 bytes leave the write
buffer for that event. -/
theorem writable_event_two_writes (N B : Nat) (s : State) (e : Event) (c : client_t)
    (hfd : e.fd ≠ s.g_listen_fd) (hc : get_client N s e.fd = some c)
    (hout : e.events &&& EPOLLOUT ≠ 0) (hin : e.events &&& EPOLLIN = 0) :
    ∃ s1, dispatch N B s e = some s1 ∧
      ∀ g, writes s1.trace g ≤ writes s.trace g + 2 ∧
        (sent s1.trace g).length ≤ (sent s.trace g).length + 16 := by
  unfold dispatch
  rw [if_neg hfd, if_neg (epollout_flags _ hout)]
  have hin2 : ¬ (e.events &&& EPOLLIN ≠ 0) := fun h => h hin
  simp only [hc, if_neg hin2]
  exact dispatch_echo_count B hc

/-- Witness for C10 (amended) on the sample connection. -/
theorem writable_event_two_writes_witness :
    (5 : Int) ≠ 3 ∧ get_client 1024 sample_state 5 = some sample_client ∧
    EPOLLOUT &&& EPOLLOUT ≠ 0 ∧ EPOLLOUT &&& EPOLLIN = 0 ∧
    ∃ s1, dispatch 1024 4096 sample_state
        (sample_event 5 EPOLLOUT [] (WriteRes.took 8) (WriteRes.took 8)) = some s1 ∧
      ∀ g, writes s1.trace g ≤ writes sample_state.trace g + 2 ∧
        (sent s1.trace g).length ≤ (sent sample_state.trace g).length + 16 :=
  ⟨by decide, rfl, by decide, by decide,
    writable_event_two_writes 1024 4096 sample_state
      (sample_event 5 EPOLLOUT [] (WriteRes.took 8) (WriteRes.took 8)) sample_client
      (by decide) rfl (by decide) (by decide)⟩

/-- C10 (counterexample). One Writable-only event on the sample connection,
twenty bytes pending: two `write` calls are made and sixteen bytes leave the
write buffer, four stay. -/
theorem writable_event_writes_twice :
    (dispatch 1024 4096 sample_state
        (sample_event 5 EPOLLOUT [] (WriteRes.took 8) (WriteRes.took 8))).map
      (fun s => (writes s.trace 5, (sent s.trace 5).length,
        (get_client 1024 s 5).map (fun c => c.wlen))) = some (2, 16, some 4) := by
  decide

/-! ## Accepting connections (C8) -/

/-- One call of `accept_data` makes one `accept` and takes at most the head
of the backlog; it leaves the client table alone. -/
theorem accept_data_once (s : State) (lfd : Int) (r1 r2 : Option Int) :
    accepts (accept_data s lfd r1 r2).2.trace = accepts s.trace + 1 ∧
    (accept_data s lfd r1 r2).2.backlog = s.backlog.tail ∧
    (accept_data s lfd r1 r2).2.g_clients = s.g_clients := by
  unfold accept_data
  cases hb : s.backlog with
  | nil => simp [set_errno, log, accepts, hb]
  | cons fd rest =>
    simp only
    by_cases hneg : fd < 0
    · simp only [if_pos hneg]
      simp [log, accepts]
    · simp only [if_neg hneg]
      cases r1 with
      | some e =>
        simp only [set_nonblocking]
        simp [log, set_errno, accepts]
      | none =>
        simp only [set_nonblocking]
        cases r2 with
        | some e => simp [log, set_errno, accepts]
        | none => simp [log, set_errno, accepts]

theorem accept_data_ok {s : State} {fd : Int} {rest : List Int} (lfd : Int)
    (hb : s.backlog = fd :: rest) (hpos : 0 ≤ fd) :
    (accept_data s lfd none none).1 = fd := by
  unfold accept_data
  rw [hb]
  have hneg : ¬ fd < 0 := by omega
  simp [hneg, set_nonblocking]

theorem add_client_same_trace (N : Nat) (s : State) (fd : Int) (ev : Nat) :
    (add_client N s fd ev).2.trace = s.trace ∧
      (add_client N s fd ev).2.backlog = s.backlog := by
  cases hc : get_client N s fd with
  | some c => rw [add_client_exists ev hc]; exact ⟨rfl, rfl⟩
  | none => rw [add_client_fresh ev hc]; exact ⟨rfl, rfl⟩

/-- C8 (amended). The dispatch of one readiness event on the listening
handle calls `accept_data` exactly once: one `accept` is made and at most
the first pending connection leaves the backlog, the others stay pending.
When that connection is set up without failure and its handle is a valid,
untracked one, it is in the client table afterwards with Read-only
interest and empty buffers, and no other entry has changed. -/
theorem accept_one_per_event (N B : Nat) (s : State) (e : Event)
    (hfd : e.fd = s.g_listen_fd) :
    ∃ s1, dispatch N B s e = some s1 ∧
      accepts s1.trace = accepts s.trace + 1 ∧
      s1.backlog = s.backlog.tail ∧
      ∀ fd rest, s.backlog = fd :: rest → e.fcntl_err = none → e.ctl_err = none →
        0 < fd → fd < (N : Int) → get_client N s fd = none →
        ∃ c, get_client N s1 fd = some c ∧ c.fd = fd ∧ c.events = EPOLLIN ∧
          c.rlen = 0 ∧ c.wlen = 0 ∧
          ∀ g, g ≠ fd → get_client N s1 g = get_client N s g := by
  obtain ⟨ha, hb, hg⟩ := accept_data_once s s.g_listen_fd e.fcntl_err e.ctl_err
  unfold dispatch
  rw [if_pos hfd]
  simp only
  by_cases hneg : (accept_data s s.g_listen_fd e.fcntl_err e.ctl_err).1 < 0
  · rw [if_pos hneg]
    refine ⟨_, rfl, ha, hb, ?_⟩
    intro fd rest hbl h1 h2 hlo hhi hc
    rw [h1, h2, accept_data_ok _ hbl (by omega)] at hneg
    omega
  · rw [if_neg hneg]
    refine ⟨_, rfl, ?_, ?_, ?_⟩
    · rw [(add_client_same_trace N _ _ _).1]
      exact ha
    · rw [(add_client_same_trace N _ _ _).2]
      exact hb
    · intro fd rest hbl h1 h2 hlo hhi hc
      have hret : (accept_data s s.g_listen_fd e.fcntl_err e.ctl_err).1 = fd := by
        rw [h1, h2]
        exact accept_data_ok _ hbl (by omega)
      have hc1 : get_client N (accept_data s s.g_listen_fd e.fcntl_err e.ctl_err).2 fd
          = none :=
        (get_client_congr (by rw [hg])).trans hc
      rw [hret]
      obtain ⟨c, -, h3, h4, h5, h6, h7, h8⟩ :=
        (add_client_in_range N (accept_data s s.g_listen_fd e.fcntl_err e.ctl_err).2 fd
          EPOLLIN hlo hhi).2 hc1
      refine ⟨c, h3, h4, h5, h6, h7, ?_⟩
      intro g hgf
      rw [h8 g hgf]
      exact get_client_congr (by rw [hg])

/-- Witness for C8 (amended): two connections pending, one event. -/
theorem accept_one_per_event_witness :
    (3 : Int) = (init_state 3 [5, 6]).g_listen_fd ∧
    ∃ s1, dispatch 1024 4096 (init_state 3 [5, 6])
        (sample_event 3 EPOLLIN [] (WriteRes.took 0) (WriteRes.took 0)) = some s1 ∧
      accepts s1.trace = accepts (init_state 3 [5, 6]).trace + 1 ∧
      s1.backlog = (init_state 3 [5, 6]).backlog.tail ∧
      ∀ fd rest, (init_state 3 [5, 6]).backlog = fd :: rest →
        (none : Option Int) = none → (none : Option Int) = none →
        0 < fd → fd < ((1024 : Nat) : Int) → get_client 1024 (init_state 3 [5, 6]) fd = none →
        ∃ c, get_client 1024 s1 fd = some c ∧ c.fd = fd ∧ c.events = EPOLLIN ∧
          c.rlen = 0 ∧ c.wlen = 0 ∧
          ∀ g, g ≠ fd → get_client 1024 s1 g = get_client 1024 (init_state 3 [5, 6]) g :=
  ⟨rfl, accept_one_per_event 1024 4096 (init_state 3 [5, 6])
    (sample_event 3 EPOLLIN [] (WriteRes.took 0) (WriteRes.took 0)) rfl⟩

/-- C8 (counterexample). Two connections, with handles 5 and 6, are pending
when the listening handle is reported ready: the dispatch of that event
makes one `accept`, adds handle 5 with Read-only interest, and leaves
handle 6 pending and untracked. -/
theorem accept_not_drained :
    (dispatch 1024 4096 (init_state 3 [5, 6])
        (sample_event 3 EPOLLIN [] (WriteRes.took 0) (WriteRes.took 0))).map
      (fun s => (accepts s.trace, s.backlog,
        (get_client 1024 s 5).map (fun c => c.events),
        (get_client 1024 s 6).isSome)) = some (1, [6], some EPOLLIN, false) := by
  decide

/-! ## The read buffer (C3) -/

theorem in_capacity_cons (B : Nat) (x : Call) (t : List Call) :
    in_capacity B (x :: t) =
      ((match x with
        | Call.memcpy off n => decide (off + n ≤ B)
        | _ => true) && in_capacity B t) := by
  simp [in_capacity]

/-- The loop of `read_data` appends every chunk in full, never reports
anything but 0 or -1, and stays inside the buffer whenever the final `rlen`
does. -/
theorem read_loop_appends {N : Nat} (B : Nat) (fd : Int) (reads : List (List Byte))
    (rerr : Int) :
    ∀ (s : State) (c : client_t), get_client N s fd = some c →
      ((read_loop s fd c reads rerr).1 = 0 ∨ (read_loop s fd c reads rerr).1 = -1) ∧
      ∃ c1, get_client N (read_loop s fd c reads rerr).2 fd = some c1 ∧
        c1.rlen = c.rlen + (delivered reads).length ∧
        bytes c1.rbuf c1.rlen = bytes c.rbuf c.rlen ++ delivered reads ∧
        (c1.rlen ≤ B → in_capacity B s.trace = true →
          in_capacity B (read_loop s fd c reads rerr).2.trace = true) := by
  induction reads with
  | nil =>
    intro s c hc
    refine ⟨Or.inr rfl, c, hc, by simp [delivered], by simp [delivered], ?_⟩
    intro _ h
    simpa [read_loop, set_errno, log, in_capacity_cons] using h
  | cons l rest ih =>
    intro s c hc
    by_cases hl : l.length = 0
    · simp only [read_loop, if_pos hl, delivered]
      refine ⟨by simp, c, hc, by simp, by simp, ?_⟩
      intro _ h
      simpa [log, in_capacity_cons] using h
    · simp only [read_loop, if_neg hl, delivered]
      obtain ⟨hr, -⟩ := get_client_range hc
      obtain ⟨hret, c2, h2, hlen, hbytes, hcap⟩ :=
        ih (set_client (log (log s (Call.read c.fd l)) (Call.memcpy c.rlen l.length)) fd
            (some { c with rbuf := memcpy c.rbuf c.rlen (chunk_buf l) 0 l.length,
                           rlen := c.rlen + l.length }))
          _ (get_client_set_same (N := N) _ _ hr)
      simp only at hlen hbytes
      refine ⟨hret, c2, h2, ?_, ?_, ?_⟩
      · rw [hlen, List.length_append]
        omega
      · rw [hbytes, bytes_memcpy, bytes_chunk_buf, List.append_assoc]
      · intro hle hin
        apply hcap hle
        have h3 : c.rlen + l.length ≤ B := by omega
        simp [set_client, log, in_capacity_cons, h3, hin]

/-- What the loop of `read_data` returns: 0 when a `read` returned 0, else
-1 with the `errno` of the failing `read`. -/
theorem read_loop_result (fd : Int) (reads : List (List Byte)) (rerr : Int) :
    ∀ (s : State) (c : client_t),
      (read_loop s fd c reads rerr).1 = (if peer_closed reads = true then 0 else -1) ∧
      (peer_closed reads = false → (read_loop s fd c reads rerr).2.errno = rerr) := by
  induction reads with
  | nil =>
    intro s c
    simp [read_loop, peer_closed, set_errno]
  | cons l rest ih =>
    intro s c
    by_cases hl : l.length = 0
    · simp only [read_loop, peer_closed, if_pos hl]
      simp
    · simp only [read_loop, peer_closed, if_neg hl]
      exact ih _ _

/-- C3 (amended). For every tracked connection and every Readable event
whose chunks fit, `rlen` plus the bytes `read` hands over staying within
`BUFFER_LEN`: `read_data` appends every chunk in full and in order behind
the bytes already buffered, `rlen` grows by their length, nothing is
truncated and no byte is stored at or beyond the capacity; it returns 0
when a `read` returned 0 and otherwise -1 with the `errno` of the failing
`read`; and `run_server` tears the connection down on 0 and on -1 with an
`errno` other than `EAGAIN` and `EINTR`, and goes on to the echo step
otherwise.  There is no capacity test and no buffer-overflow result in
`read_data`; a chunk that does not fit is outside this statement. -/
theorem read_data_appends (N B : Nat) (s : State) (e : Event) (c : client_t)
    (hfd : e.fd ≠ s.g_listen_fd) (hin : e.events &&& EPOLLIN ≠ 0)
    (hc : get_client N s e.fd = some c)
    (hcap : c.rlen + (delivered e.reads).length ≤ B) :
    (read_data N s e.fd e.reads e.rerr).1 = (if peer_closed e.reads = true then 0 else -1) ∧
    (peer_closed e.reads = false → (read_data N s e.fd e.reads e.rerr).2.errno = e.rerr) ∧
    (∃ c1, get_client N (read_data N s e.fd e.reads e.rerr).2 e.fd = some c1 ∧
      c1.rlen = c.rlen + (delivered e.reads).length ∧
      bytes c1.rbuf c1.rlen = bytes c.rbuf c.rlen ++ delivered e.reads) ∧
    (in_capacity B s.trace = true →
      in_capacity B (read_data N s e.fd e.reads e.rerr).2.trace = true) ∧
    dispatch N B s e =
      (if peer_closed e.reads = true ∨ (e.rerr ≠ EAGAIN ∧ e.rerr ≠ EINTR) then
        some (del_client N (read_data N s e.fd e.reads e.rerr).2 e.fd).2
      else dispatch_echo N B (read_data N s e.fd e.reads e.rerr).2 e) ∧
    get_client N (del_client N (read_data N s e.fd e.reads e.rerr).2 e.fd).2 e.fd = none := by
  have hrd : read_data N s e.fd e.reads e.rerr = read_loop s e.fd c e.reads e.rerr := by
    simp only [read_data, hc]
  obtain ⟨hret, herr⟩ := read_loop_result e.fd e.reads e.rerr s c
  obtain ⟨-, c1, h1, hlen, hbytes, hcapk⟩ :=
    read_loop_appends (N := N) B e.fd e.reads e.rerr s c hc
  rw [← hrd] at hret herr h1 hcapk
  refine ⟨hret, herr, ⟨c1, h1, hlen, hbytes⟩, hcapk (by omega), ?_, del_client_absent _ _ _⟩
  unfold dispatch
  rw [if_neg hfd, if_neg (epollin_flags _ hin)]
  simp only [hc, if_pos hin]
  cases hpc : peer_closed e.reads with
  | true =>
    rw [hpc] at hret
    simp only [if_true] at hret
    simp [hret]
  | false =>
    rw [hpc] at hret
    simp only [Bool.false_eq_true, if_false] at hret
    have herr2 := herr hpc
    simp [hret, herr2]

/-- Witness for C3 (amended): two chunks, then the end of the stream. -/
theorem read_data_appends_witness :
    (5 : Int) ≠ sample_state.g_listen_fd ∧ EPOLLIN &&& EPOLLIN ≠ 0 ∧
    get_client 1024 sample_state 5 = some sample_client ∧
    sample_client.rlen + (delivered [[1, 2], [3], []]).length ≤ 4096 ∧
    (read_data 1024 sample_state 5 [[1, 2], [3], []] EAGAIN).1 = 0 ∧
    ∃ c1, get_client 1024 (read_data 1024 sample_state 5 [[1, 2], [3], []] EAGAIN).2 5
        = some c1 ∧
      c1.rlen = sample_client.rlen + (delivered [[1, 2], [3], []]).length ∧
      bytes c1.rbuf c1.rlen =
        bytes sample_client.rbuf sample_client.rlen ++ delivered [[1, 2], [3], []] :=
  ⟨by decide, by decide, rfl, by decide,
    (read_data_appends 1024 4096 sample_state
      (sample_event 5 EPOLLIN [[1, 2], [3], []] (WriteRes.took 8) (WriteRes.took 8))
      sample_client (by decide) (by decide) rfl (by decide)).1,
    (read_data_appends 1024 4096 sample_state
      (sample_event 5 EPOLLIN [[1, 2], [3], []] (WriteRes.took 8) (WriteRes.took 8))
      sample_client (by decide) (by decide) rfl (by decide)).2.2.1⟩

/-- C3 (counterexample). With `BUFFER_LEN = 4096`, a fresh connection whose
peer has 5120 bytes ready.  After four chunks of 1024 bytes `rlen` is 4096
and every store was inside the buffer.  The fifth chunk would make `rlen`
exceed the capacity; `read_data` does not fail there but calls `memcpy`
with 1024 bytes for offset 4096, a store at and beyond the capacity. -/
theorem read_data_overflows :
    (get_client 1024
        (read_data 1024 (add_client 1024 (init_state 3 []) 5 EPOLLIN).2 5 four_chunks
          EAGAIN).2 5).map (fun c => c.rlen) = some 4096 ∧
    in_capacity 4096
      (read_data 1024 (add_client 1024 (init_state 3 []) 5 EPOLLIN).2 5 four_chunks
        EAGAIN).2.trace = true ∧
    Call.memcpy 4096 1024 ∈
      (read_data 1024 (add_client 1024 (init_state 3 []) 5 EPOLLIN).2 5 five_chunks
        EAGAIN).2.trace ∧
    in_capacity 4096
      (read_data 1024 (add_client 1024 (init_state 3 []) 5 EPOLLIN).2 5 five_chunks
        EAGAIN).2.trace = false := by
  set_option maxRecDepth 100000 in
  refine ⟨by decide, by decide, by decide, by decide⟩

/-! ## Echo round-trip (C1) -/

theorem inv_under_fresh {N : Nat} {s s1 : State}
    (hf : fresh_accepts s1.trace = fresh_accepts s.trace)
    (hi : conn_inv N s → conn_inv N s1)
    (h : fresh_accepts s.trace = true → conn_inv N s) :
    fresh_accepts s1.trace = true → conn_inv N s1 := by
  intro h1
  rw [hf] at h1
  exact hi (h h1)

theorem dispatch_echo_inv {N : Nat} {s : State} {e : Event} {c : client_t} (B : Nat)
    (hc : get_client N s e.fd = some c)
    (hinv : fresh_accepts s.trace = true → conn_inv N s) :
    ∃ s1, dispatch_echo N B s e = some s1 ∧
      (fresh_accepts s1.trace = true → conn_inv N s1) := by
  obtain ⟨sm, cm, -, -, -, -, ⟨hfm, him, -⟩, hd⟩ := handle_data_move B hc
  have hm := inv_under_fresh hfm him hinv
  have hw : ∀ (x : State) (r : WriteRes),
      (fresh_accepts x.trace = true → conn_inv N x) →
      (fresh_accepts (write_data N x e.fd r).2.trace = true →
        conn_inv N (write_data N x e.fd r).2) :=
    fun x r hx =>
      inv_under_fresh (write_data_fresh N x e.fd r) (write_data_inv e.fd r) hx
  have hdl : ∀ x : State,
      (fresh_accepts x.trace = true → conn_inv N x) →
      (fresh_accepts (del_client N x e.fd).2.trace = true →
        conn_inv N (del_client N x e.fd).2) :=
    fun x hx => inv_under_fresh (del_client_fresh N x e.fd) (del_client_inv e.fd) hx
  have hhw : ∀ x : State,
      (fresh_accepts x.trace = true → conn_inv N x) →
      (fresh_accepts (handle_write_events x e.fd e.ctl_err).2.trace = true →
        conn_inv N (handle_write_events x e.fd e.ctl_err).2) :=
    fun x hx =>
      inv_under_fresh (handle_write_events_fresh x e.fd e.ctl_err)
        (handle_write_events_inv e.fd e.ctl_err) hx
  simp only [dispatch_echo, hd]
  by_cases hw1 : (write_data N sm e.fd e.w1).1 < 0 ∧
      (write_data N sm e.fd e.w1).2.errno ≠ EAGAIN ∧ (write_data N sm e.fd e.w1).2.errno ≠ EINTR
  · simp only [if_pos hw1]
    split_ifs
    · exact ⟨_, rfl, hdl _ (hw _ _ (hdl _ (hw _ _ hm)))⟩
    · exact ⟨_, rfl, hhw _ (hw _ _ (hdl _ (hw _ _ hm)))⟩
    · exact ⟨_, rfl, hhw _ (hdl _ (hw _ _ hm))⟩
  · simp only [if_neg hw1]
    split_ifs
    · exact ⟨_, rfl, hdl _ (hw _ _ (hw _ _ hm))⟩
    · exact ⟨_, rfl, hhw _ (hw _ _ (hw _ _ hm))⟩
    · exact ⟨_, rfl, hhw _ (hw _ _ hm)⟩

/-- The dispatch of one event never crashes and keeps the invariant, as
long as `accept` hands out descriptors that are not in use. -/
theorem dispatch_inv {N : Nat} (B : Nat) {s : State} (e : Event)
    (hinv : fresh_accepts s.trace = true → conn_inv N s) :
    ∃ s1, dispatch N B s e = some s1 ∧
      (fresh_accepts s1.trace = true → conn_inv N s1) := by
  have hdl : ∀ x : State,
      (fresh_accepts x.trace = true → conn_inv N x) →
      (fresh_accepts (del_client N x e.fd).2.trace = true →
        conn_inv N (del_client N x e.fd).2) :=
    fun x hx => inv_under_fresh (del_client_fresh N x e.fd) (del_client_inv e.fd) hx
  unfold dispatch
  by_cases hfd : e.fd = s.g_listen_fd
  · rw [if_pos hfd]
    have ha : fresh_accepts (accept_data s s.g_listen_fd e.fcntl_err e.ctl_err).2.trace = true →
        conn_inv N (accept_data s s.g_listen_fd e.fcntl_err e.ctl_err).2 :=
      fun h => accept_data_inv _ _ _ h (hinv (accept_data_fresh _ _ _ _ h))
    simp only
    by_cases hneg : (accept_data s s.g_listen_fd e.fcntl_err e.ctl_err).1 < 0
    · rw [if_pos hneg]
      exact ⟨_, rfl, ha⟩
    · rw [if_neg hneg]
      refine ⟨_, rfl, ?_⟩
      intro h
      rw [(add_client_same_trace N _ _ _).1] at h
      exact add_client_inv _ _ (accept_data_opened _ _ _ _ hneg) (ha h)
  · rw [if_neg hfd]
    by_cases hflags : e.events &&& (EPOLLIN ||| EPOLLOUT) = 0
    · rw [if_pos hflags]
      exact ⟨_, rfl, hdl _ hinv⟩
    · rw [if_neg hflags]
      cases hc : get_client N s e.fd with
      | none => exact ⟨s, rfl, hinv⟩
      | some c =>
        simp only
        by_cases hin : e.events &&& EPOLLIN ≠ 0
        · rw [if_pos hin]
          obtain ⟨⟨c1, h1, -⟩, -⟩ := read_data_keep e.reads e.rerr hc
          have hr := inv_under_fresh (read_data_fresh N s e.fd e.reads e.rerr)
            (read_data_inv (N := N) e.fd e.reads e.rerr) hinv
          split_ifs
          · exact ⟨_, rfl, hdl _ hr⟩
          · exact ⟨_, rfl, hdl _ hr⟩
          · exact dispatch_echo_inv B h1 hr
        · rw [if_neg hin]
          exact dispatch_echo_inv B hc hinv

theorem run_inv {N : Nat} (B : Nat) (evs : List Event) :
    ∀ s : State, (fresh_accepts s.trace = true → conn_inv N s) →
      ∃ s1, run N B s evs = some s1 ∧ (fresh_accepts s1.trace = true → conn_inv N s1) := by
  induction evs with
  | nil =>
    intro s hinv
    exact ⟨s, rfl, hinv⟩
  | cons e es ih =>
    intro s hinv
    obtain ⟨s1, h1, hinv1⟩ := dispatch_inv B e hinv
    obtain ⟨s2, h2, hinv2⟩ := ih s1 hinv1
    refine ⟨s2, ?_, hinv2⟩
    simp only [run, h1]
    exact h2

theorem init_state_inv (N : Nat) (lfd : Int) (backlog : List Int) :
    conn_inv N (init_state lfd backlog) := by
  refine ⟨?_, ?_, ?_⟩
  · intro k c h
    simp [init_state] at h
  · intro k c h
    simp [init_state] at h
  · intro g
    simp [echo_law, init_state, get_client, life, sent, recv]

/-- C1. Echo round-trip: any sequence of events dispatched from the state
`run_server` starts in runs without a crash, and afterwards, for every
connection in the client table (the kernel handing out only descriptors
that are not in use, the stores having stayed within `BUFFER_LEN`): over
the lifetime of the connection, that is since its descriptor was last
closed, the bytes accepted by `write`, then the first `wlen` bytes of
`wbuf`, then the first `rlen` bytes of `rbuf`, are the bytes received, in
order; with both buffers empty the output equals the input. -/
theorem echo_round_trip (N B : Nat) (listen_fd : Int) (backlog : List Int)
    (evs : List Event) :
    ∃ s1, run N B (init_state listen_fd backlog) evs = some s1 ∧
      ∀ fd c, fresh_accepts s1.trace = true → in_capacity B s1.trace = true →
        get_client N s1 fd = some c →
        sent (life s1.trace fd) fd ++ bytes c.wbuf c.wlen ++ bytes c.rbuf c.rlen =
          recv (life s1.trace fd) fd ∧
        (c.wlen = 0 → c.rlen = 0 →
          sent (life s1.trace fd) fd = recv (life s1.trace fd) fd) := by
  obtain ⟨s1, h1, hinv1⟩ :=
    run_inv (N := N) B evs (init_state listen_fd backlog)
      (fun _ => init_state_inv N listen_fd backlog)
  refine ⟨s1, h1, ?_⟩
  intro fd c hfresh _ hc
  have h := (hinv1 hfresh).2.2 fd
  unfold echo_law at h
  rw [hc] at h
  simp only at h
  refine ⟨h, ?_⟩
  intro hw hr
  rw [hw, hr] at h
  simpa [bytes_zero] using h

/-- Witness for C1: descriptor 5 is used by two connections in turn.  The
first receives two bytes, cannot write them and is closed by its peer; the
second receives one byte and echoes it. -/
theorem echo_round_trip_witness :
    ∃ s1, run 1024 4096 (init_state 3 [5, 5])
        [sample_event 3 EPOLLIN [] (WriteRes.took 0) (WriteRes.took 0),
          sample_event 5 EPOLLIN [[1, 2]] (WriteRes.fail EAGAIN) (WriteRes.fail EAGAIN),
          sample_event 5 EPOLLIN [[]] (WriteRes.took 0) (WriteRes.took 0),
          sample_event 3 EPOLLIN [] (WriteRes.took 0) (WriteRes.took 0),
          sample_event 5 EPOLLIN [[3]] (WriteRes.took 8) (WriteRes.took 8)] = some s1 ∧
      ∀ fd c, fresh_accepts s1.trace = true → in_capacity 4096 s1.trace = true →
        get_client 1024 s1 fd = some c →
        sent (life s1.trace fd) fd ++ bytes c.wbuf c.wlen ++ bytes c.rbuf c.rlen =
          recv (life s1.trace fd) fd ∧
        (c.wlen = 0 → c.rlen = 0 →
          sent (life s1.trace fd) fd = recv (life s1.trace fd) fd) :=
  echo_round_trip 1024 4096 3 [5, 5]
    [sample_event 3 EPOLLIN [] (WriteRes.took 0) (WriteRes.took 0),
      sample_event 5 EPOLLIN [[1, 2]] (WriteRes.fail EAGAIN) (WriteRes.fail EAGAIN),
      sample_event 5 EPOLLIN [[]] (WriteRes.took 0) (WriteRes.took 0),
      sample_event 3 EPOLLIN [] (WriteRes.took 0) (WriteRes.took 0),
      sample_event 5 EPOLLIN [[3]] (WriteRes.took 8) (WriteRes.took 8)]

/-- The run of the witness for C1, evaluated.  Over the whole trace
descriptor 5 has sent `[3]` and received `[1, 2, 3]`; over the lifetime of
the connection now on it, it has sent `[3]` and received `[3]`, both
buffers are empty, every `accept` returned a free descriptor and every
store is inside the buffer. -/
theorem echo_round_trip_sample :
    (run 1024 4096 (init_state 3 [5, 5])
        [sample_event 3 EPOLLIN [] (WriteRes.took 0) (WriteRes.took 0),
          sample_event 5 EPOLLIN [[1, 2]] (WriteRes.fail EAGAIN) (WriteRes.fail EAGAIN),
          sample_event 5 EPOLLIN [[]] (WriteRes.took 0) (WriteRes.took 0),
          sample_event 3 EPOLLIN [] (WriteRes.took 0) (WriteRes.took 0),
          sample_event 5 EPOLLIN [[3]] (WriteRes.took 8) (WriteRes.took 8)]).map
      (fun s => (sent s.trace 5, recv s.trace 5,
        sent (life s.trace 5) 5, recv (life s.trace 5) 5,
        (get_client 1024 s 5).map (fun c => (bytes c.wbuf c.wlen, bytes c.rbuf c.rlen)),
        fresh_accepts s.trace, in_capacity 4096 s.trace)) =
      some ([3], [1, 2, 3], [3], [3], some ([], []), true, true) := by
  rfl

/-! ## Removing Write interest (C9) -/

theorem events_ok_set {s s1 : State} {fd : Int} {p : Option client_t}
    (hev : events_ok s)
    (hslot : s1.g_clients = fun k => if k = fd then p else s.g_clients k)
    (hp : ∀ c1, p = some c1 →
      c1.events = EPOLLIN ∨ c1.events = EPOLLIN ||| EPOLLOUT) :
    events_ok s1 := by
  intro k d hk
  rw [hslot] at hk
  by_cases hkf : k = fd
  · simp only [hkf, if_true] at hk
    exact hp d hk
  · simp only [hkf, if_false] at hk
    exact hev k d hk

theorem events_ok_congr {s s1 : State} (hev : events_ok s)
    (hslot : s1.g_clients = s.g_clients) : events_ok s1 := by
  intro k d hk
  rw [hslot] at hk
  exact hev k d hk

theorem read_loop_events (fd : Int) (reads : List (List Byte)) (rerr : Int) :
    ∀ (s : State) (c : client_t), events_ok s →
      (c.events = EPOLLIN ∨ c.events = EPOLLIN ||| EPOLLOUT) →
      events_ok (read_loop s fd c reads rerr).2 := by
  induction reads with
  | nil =>
    intro s c hev _
    exact events_ok_congr hev rfl
  | cons l rest ih =>
    intro s c hev hc
    by_cases hl : l.length = 0
    · simp only [read_loop, if_pos hl]
      exact events_ok_congr hev rfl
    · simp only [read_loop, if_neg hl]
      refine ih _ _ ?_ hc
      refine events_ok_set hev rfl ?_
      intro c1 h1
      cases h1
      exact hc

theorem read_data_events (N : Nat) {s : State} (fd : Int) (reads : List (List Byte))
    (rerr : Int) (hev : events_ok s) :
    events_ok (read_data N s fd reads rerr).2 := by
  unfold read_data
  cases hc : get_client N s fd with
  | none => exact hev
  | some c => exact read_loop_events fd reads rerr s c hev (hev fd c (get_client_range hc).2)

theorem write_data_events (N : Nat) {s : State} (fd : Int) (r : WriteRes)
    (hev : events_ok s) : events_ok (write_data N s fd r).2 := by
  cases hc : get_client N s fd with
  | none =>
    rw [write_data_absent hc]
    exact hev
  | some c =>
    by_cases hw : c.wlen = 0
    · rw [write_data_empty hc hw]
      exact hev
    · cases r with
      | took k =>
        rw [write_data_took hc hw]
        refine events_ok_set hev rfl ?_
        intro c1 h1
        cases h1
        exact hev fd c (get_client_range hc).2
      | fail e =>
        rw [write_data_fail hc hw]
        exact events_ok_congr hev rfl

theorem del_client_events (N : Nat) {s : State} (fd : Int) (hev : events_ok s) :
    events_ok (del_client N s fd).2 := by
  unfold del_client
  cases hc : get_client N s fd with
  | none => exact hev
  | some c =>
    simp only
    refine @events_ok_set s _ fd none hev ?_ (fun c1 h1 => by cases h1)
    split <;> rfl

theorem add_client_events (N : Nat) {s : State} (fd : Int) (hev : events_ok s) :
    events_ok (add_client N s fd EPOLLIN).2 := by
  cases hc : get_client N s fd with
  | some c =>
    rw [add_client_exists EPOLLIN hc]
    exact hev
  | none =>
    rw [add_client_fresh EPOLLIN hc]
    refine events_ok_set hev rfl ?_
    intro c1 h1
    cases h1
    exact Or.inl rfl

theorem handle_data_events {N B : Nat} {s : State} {fd : Int} {r : WriteRes}
    {h : Int × State} (hev : events_ok s) (hh : handle_data N B s fd r = some h) :
    events_ok h.2 := by
  cases hc : get_client N s fd with
  | none =>
    simp [handle_data, hc] at hh
  | some c =>
    obtain ⟨sm, cm, -, -, -, -, ⟨-, -, hevm⟩, hd⟩ := handle_data_move B hc
    rw [hd] at hh
    simp only at hh
    have h1 := write_data_events N fd r (hevm hev)
    split_ifs at hh
    · cases hh
      exact del_client_events N fd h1
    · cases hh
      exact h1

theorem handle_write_events_events {s : State} (fd : Int) (ctl : Option Int)
    (hev : events_ok s) : events_ok (handle_write_events s fd ctl).2 := by
  unfold handle_write_events
  cases hg : s.g_clients fd with
  | none => exact hev
  | some c =>
    have hc := hev fd c hg
    simp only
    split
    · split
      · cases ctl with
        | none =>
          refine events_ok_set hev rfl ?_
          intro c1 h1
          cases h1
          rcases hc with h | h <;> (rw [h]; dsimp only; decide)
        | some e => exact events_ok_congr hev rfl
      · exact hev
    · split
      · cases ctl with
        | none =>
          refine events_ok_set hev rfl ?_
          intro c1 h1
          cases h1
          rcases hc with h | h <;> (rw [h]; dsimp only; decide)
        | some e => exact events_ok_congr hev rfl
      · exact hev

/-- In every state the process can be in, the interest of a connection is
Read, or Read and Write: `add_client` is called with `EPOLLIN` and only
`handle_write_events` changes the field, by adding or removing
`EPOLLOUT`. -/
theorem reachable_events_ok {N B : Nat} {s : State} (hs : Reachable N B s) :
    events_ok s := by
  induction hs with
  | start lfd backlog =>
    intro k c h
    simp [init_state] at h
  | accept s lfd r1 r2 _ ih =>
    exact events_ok_congr ih (accept_data_once s lfd r1 r2).2.2
  | add s fd _ ih => exact add_client_events N fd ih
  | del s fd _ ih => exact del_client_events N fd ih
  | read s fd reads rerr _ ih => exact read_data_events N fd reads rerr ih
  | write s fd r _ ih => exact write_data_events N fd r ih
  | handle s fd r h _ hh ih => exact handle_data_events ih hh
  | interest s fd ctl _ ih => exact handle_write_events_events fd ctl ih

theorem dispatch_echo_reachable {N B : Nat} {s : State} {e : Event} {c : client_t}
    (hc : get_client N s e.fd = some c) (hs : Reachable N B s) :
    ∃ s1, dispatch_echo N B s e = some s1 ∧ Reachable N B s1 := by
  obtain ⟨sm, cm, -, -, -, -, -, hd⟩ := handle_data_move B hc
  simp only [dispatch_echo, hd]
  by_cases hw1 : (write_data N sm e.fd e.w1).1 < 0 ∧
      (write_data N sm e.fd e.w1).2.errno ≠ EAGAIN ∧ (write_data N sm e.fd e.w1).2.errno ≠ EINTR
  · have hh : Reachable N B (del_client N (write_data N sm e.fd e.w1).2 e.fd).2 :=
      Reachable.handle s e.fd e.w1 (-1, (del_client N (write_data N sm e.fd e.w1).2 e.fd).2)
        hs (by rw [hd]; simp only [if_pos hw1])
    simp only [if_pos hw1]
    split_ifs
    · exact ⟨_, rfl, Reachable.del _ _ (Reachable.write _ _ _ hh)⟩
    · exact ⟨_, rfl, Reachable.interest _ _ _ (Reachable.write _ _ _ hh)⟩
    · exact ⟨_, rfl, Reachable.interest _ _ _ hh⟩
  · have hh : Reachable N B (write_data N sm e.fd e.w1).2 :=
      Reachable.handle s e.fd e.w1 (1, (write_data N sm e.fd e.w1).2)
        hs (by rw [hd]; simp only [if_neg hw1])
    simp only [if_neg hw1]
    split_ifs
    · exact ⟨_, rfl, Reachable.del _ _ (Reachable.write _ _ _ hh)⟩
    · exact ⟨_, rfl, Reachable.interest _ _ _ (Reachable.write _ _ _ hh)⟩
    · exact ⟨_, rfl, Reachable.interest _ _ _ hh⟩

/-- Every state `run_server` produces, and every state inside a dispatch,
is one of the states of `Reachable`. -/
theorem run_reachable {N B : Nat} (evs : List Event) :
    ∀ s : State, Reachable N B s →
      ∃ s1, run N B s evs = some s1 ∧ Reachable N B s1 := by
  induction evs with
  | nil =>
    intro s hs
    exact ⟨s, rfl, hs⟩
  | cons e es ih =>
    intro s hs
    have hd : ∃ s1, dispatch N B s e = some s1 ∧ Reachable N B s1 := by
      unfold dispatch
      by_cases hfd : e.fd = s.g_listen_fd
      · rw [if_pos hfd]
        simp only
        split_ifs
        · exact ⟨_, rfl, Reachable.accept _ _ _ _ hs⟩
        · exact ⟨_, rfl, Reachable.add _ _ (Reachable.accept _ _ _ _ hs)⟩
      · rw [if_neg hfd]
        by_cases hflags : e.events &&& (EPOLLIN ||| EPOLLOUT) = 0
        · rw [if_pos hflags]
          exact ⟨_, rfl, Reachable.del _ _ hs⟩
        · rw [if_neg hflags]
          cases hc : get_client N s e.fd with
          | none => exact ⟨s, rfl, hs⟩
          | some c =>
            simp only
            by_cases hin : e.events &&& EPOLLIN ≠ 0
            · rw [if_pos hin]
              obtain ⟨⟨c1, h1, -⟩, -⟩ := read_data_keep e.reads e.rerr hc
              have hr := Reachable.read s e.fd e.reads e.rerr hs
              split_ifs
              · exact ⟨_, rfl, Reachable.del _ _ hr⟩
              · exact ⟨_, rfl, Reachable.del _ _ hr⟩
              · exact dispatch_echo_reachable h1 hr
            · rw [if_neg hin]
              exact dispatch_echo_reachable hc hs
    obtain ⟨s1, h1, hs1⟩ := hd
    obtain ⟨s2, h2, hs2⟩ := ih s1 hs1
    refine ⟨s2, ?_, hs2⟩
    simp only [run, h1]
    exact h2

/-- C9. Registry operation on removing Write interest: in every state the
process can be in, for a tracked connection whose write buffer is empty and
whose interest has `EPOLLOUT` set, `handle_write_events` issues one
`epoll_ctl` for the interest without `EPOLLOUT`, with `EPOLL_CTL_DEL` when
that interest is empty and `EPOLL_CTL_MOD` when it is not, and on success
stores the interest with the flag cleared.  The interest that remains is
always Read, so the operation is `EPOLL_CTL_MOD`: a connection with Write
interest only does not arise. -/
theorem handle_write_events_mod (N B : Nat) (s : State) (fd : Int) (c : client_t)
    (ctl : Option Int) (hs : Reachable N B s) (hc : get_client N s fd = some c)
    (hw : c.wlen = 0) (hf : c.events &&& EPOLLOUT ≠ 0) :
    (handle_write_events s fd ctl).2.trace =
      Call.epoll_ctl
        (if c.events &&& 4294967291 = 0 then EPOLL_CTL_DEL else EPOLL_CTL_MOD)
        c.fd (c.events &&& 4294967291) :: s.trace ∧
    c.events &&& 4294967291 = EPOLLIN ∧
    (ctl = none →
      ∃ c1, get_client N (handle_write_events s fd ctl).2 fd = some c1 ∧
        c1.events = c.events &&& 4294967291 ∧ c1.events &&& EPOLLOUT = 0 ∧
        c1.wlen = 0) := by
  obtain ⟨hr, hg⟩ := get_client_range hc
  have hev : c.events = EPOLLIN ||| EPOLLOUT := by
    rcases reachable_events_ok hs fd c hg with h | h
    · rw [h] at hf
      exact absurd (by decide) hf
    · exact h
  have hw0 : ¬ c.wlen > 0 := by omega
  have h5 : (EPOLLIN ||| EPOLLOUT) &&& 4294967291 = EPOLLIN := by decide
  have hne : ¬ c.events = 0 := by rw [hev]; decide
  have hmask : ¬ (c.events &&& 4294967291 = 0) := by rw [hev, h5]; decide
  refine ⟨?_, by rw [hev, h5], ?_⟩
  · rw [if_neg hmask]
    unfold handle_write_events
    simp only [hg, if_neg hw0, if_pos hf, if_neg hne]
    cases ctl <;> simp [set_client, set_errno, log]
  · intro hctl
    subst hctl
    unfold handle_write_events
    simp only [hg, if_neg hw0, if_pos hf]
    refine ⟨_, get_client_set_same _ _ hr, rfl, and_mask_epollout c.events, hw⟩

/-- Witness for C9: the state inside a dispatch in which a `write` has just
emptied the buffer of a connection with `EPOLLOUT` registered. -/
theorem handle_write_events_mod_witness :
    Reachable 1024 4096 drained_state ∧
    get_client 1024 drained_state 5 = some drained_client ∧
    drained_client.wlen = 0 ∧ drained_client.events &&& EPOLLOUT ≠ 0 ∧
    (handle_write_events drained_state 5 none).2.trace =
      Call.epoll_ctl
        (if drained_client.events &&& 4294967291 = 0 then EPOLL_CTL_DEL else EPOLL_CTL_MOD)
        drained_client.fd (drained_client.events &&& 4294967291) :: drained_state.trace :=
  have hs : Reachable 1024 4096 drained_state :=
    Reachable.write _ 5 (WriteRes.took 8)
      (Reachable.interest _ 5 none
        (Reachable.handle _ 5 (WriteRes.fail EAGAIN) _
          (Reachable.read _ 5 [[1, 2, 3]] EAGAIN
            (Reachable.add _ 5
              (Reachable.accept _ 3 none none (Reachable.start 3 [5]))))
          rfl))
  ⟨hs, rfl, by decide, by decide,
    (handle_write_events_mod 1024 4096 drained_state 5 drained_client none hs rfl
      (by decide) (by decide)).1⟩

/-- The call of the witness for C9, evaluated: `EPOLL_CTL_MOD` on
descriptor 5 with `EPOLLIN`. -/
theorem handle_write_events_mod_sample :
    (handle_write_events drained_state 5 none).2.trace.head? =
      some (Call.epoll_ctl EPOLL_CTL_MOD 5 EPOLLIN) := by
  decide


end EpollServer
